import Mathlib

/-
Verification of the `watertap.ui.api` flowsheet-interface module of the
watertap repository.  The module itself is absent from the available source
tree (only its test suite `watertap/ui/tests/test_api.py` is present), so
every definition below is modelled from the specification of the module,
with the test suite fixing the behavioural details it exercises.
-/

set_option maxHeartbeats 1000000

namespace WatertapAPI

/-! ## Action graph engine -/

/-- Modelled from the spec: an action-error taxonomy for the action graph
engine of the missing `watertap/ui/api.py` (unknown dependency is reported as
a `KeyError`, self dependency as a `ValueError` in the tests). -/
inductive ActionError where
  | unknownDependency (name : String)
  | selfDependency (name : String)
  | duplicateAction (name : String)
  | unregisteredAction (name : String)
deriving DecidableEq

/-- Modelled from the spec: the action registry of the missing
`watertap/ui/api.py`: a list of registered action nodes `(name, dependencies)`
in registration order, plus the attached callables with their bound keyword
arguments.  Callables are represented abstractly by a type `α`; keyword
arguments as string key/value pairs. -/
structure Actions (α : Type) where
  nodes : List (String × List String)
  impls : List (String × α × List (String × String))

/-- The empty action registry. -/
def Actions.empty (α : Type) : Actions α := ⟨[], []⟩

/-- Names of all registered actions, in registration order. -/
def Actions.registeredNames {α : Type} (a : Actions α) : List String :=
  a.nodes.map Prod.fst

/-- Modelled from the spec: `add_action_type(name, deps)` of the missing
`watertap/ui/api.py` registers a new action node; it fails fast at
registration time on a self dependency, on an unknown dependency, and on a
duplicate registration, and only on success extends the registry. -/
def Actions.add_action_type {α : Type} (a : Actions α) (name : String)
    (deps : List String) : Except ActionError (Actions α) :=
  if name ∈ deps then .error (.selfDependency name)
  else
    match deps.find? (fun d => decide (d ∉ a.registeredNames)) with
    | some d => .error (.unknownDependency d)
    | none =>
      if name ∈ a.registeredNames then .error (.duplicateAction name)
      else .ok { a with nodes := a.nodes ++ [(name, deps)] }

/-- Modelled from the spec: `set_action(name, func, **kwargs)` of the missing
`watertap/ui/api.py` attaches (or replaces) the callable and its bound keyword
arguments for an already-registered action, failing on an unregistered name. -/
def Actions.set_action {α : Type} (a : Actions α) (name : String) (f : α)
    (kwargs : List (String × String)) : Except ActionError (Actions α) :=
  if name ∈ a.registeredNames then
    .ok { a with impls := (name, f, kwargs) :: a.impls }
  else .error (.unregisteredAction name)

/-- Modelled from the spec: `get_action(name)` of the missing
`watertap/ui/api.py` returns the attached callable and bound keyword
arguments of a registered action. -/
def Actions.get_action {α : Type} (a : Actions α) (name : String) :
    Except ActionError (Option (α × List (String × String))) :=
  if name ∈ a.registeredNames then .ok (a.impls.lookup name)
  else .error (.unregisteredAction name)

/-- One step of the closure pass: when the node's name is already needed, its
dependencies become needed as well. -/
def closStep (S : List String) (p : String × List String) : List String :=
  if p.1 ∈ S then S ++ p.2 else S

/-- The closure pass over a list of action nodes (processed head first). -/
def closL : List (String × List String) → List String → List String
  | [], S => S
  | p :: rest, S => closL rest (closStep S p)

/-- Modelled from the spec: the transitive dependency closure of `start`.
Because every dependency is registered before its dependent, one backward pass
over the registration list (latest node first) collects the whole closure. -/
def closure (nodes : List (String × List String)) (start : String) :
    List String :=
  closL nodes.reverse [start]

/-- Modelled from the spec: the execution order used by `run_action`: the
registered nodes that belong to the transitive dependency closure of `start`,
in registration order (dependencies are registered before their dependents, so
registration order is a topological order). -/
def execOrder (nodes : List (String × List String)) (start : String) :
    List String :=
  (nodes.filter (fun p => decide (p.1 ∈ closure nodes start))).map Prod.fst

/-- Modelled from the spec: `run_action(name)` of the missing
`watertap/ui/api.py` resolves the transitive dependency closure of `name` and
invokes, in dependency order, each executed node's bound callable with its
bound keyword arguments; nodes with no attached callable are no-op
placeholders.  The result is the trace of invocations. -/
def Actions.run_action {α : Type} (a : Actions α) (name : String) :
    Except ActionError (List (α × List (String × String))) :=
  if name ∈ a.registeredNames then
    .ok ((execOrder a.nodes name).filterMap (fun n => a.impls.lookup n))
  else .error (.unregisteredAction name)

/-- Reachability along dependency edges: the nodes `run_action` must execute. -/
inductive Reaches (nodes : List (String × List String)) (start : String) :
    String → Prop where
  | refl : Reaches nodes start start
  | step {b : String} {ds : List String} {d : String} :
      Reaches nodes start b → (b, ds) ∈ nodes → d ∈ ds →
      Reaches nodes start d

/-- Well-formedness of a registration list, as guaranteed by
`add_action_type`: each node's name is new and its dependencies are already
registered. -/
inductive WFActions : List (String × List String) → Prop where
  | nil : WFActions []
  | snoc {l : List (String × List String)} {p : String × List String} :
      WFActions l → p.1 ∉ l.map Prod.fst →
      (∀ d ∈ p.2, d ∈ l.map Prod.fst) → WFActions (l ++ [p])

theorem mem_closL_self : ∀ (R : List (String × List String))
    (S : List String), ∀ s ∈ S, s ∈ closL R S := by
  intro R
  induction R with
  | nil => intro S s hs; simpa [closL] using hs
  | cons p rest ih =>
    intro S s hs
    simp only [closL]
    apply ih
    unfold closStep
    by_cases h : p.1 ∈ S <;> simp [h, hs]

theorem mem_closL_bound : ∀ (R : List (String × List String))
    (S : List String), ∀ n ∈ closL R S, n ∈ S ∨ ∃ p ∈ R, n ∈ p.2 := by
  intro R
  induction R with
  | nil => intro S n hn; left; simpa [closL] using hn
  | cons p rest ih =>
    intro S n hn
    simp only [closL] at hn
    rcases ih _ n hn with h | ⟨q, hq, hnq⟩
    · unfold closStep at h
      by_cases hc : p.1 ∈ S
      · simp [hc] at h
        rcases h with h | h
        · left; exact h
        · right; exact ⟨p, by simp, h⟩
      · simp [hc] at h
        left; exact h
    · right; exact ⟨q, by simp [hq], hnq⟩

theorem closL_sound (nodes : List (String × List String)) (start : String) :
    ∀ (R : List (String × List String)) (S : List String),
    (∀ p ∈ R, p ∈ nodes) → (∀ s ∈ S, Reaches nodes start s) →
    ∀ n ∈ closL R S, Reaches nodes start n := by
  intro R
  induction R with
  | nil => intro S _ hS n hn; exact hS n (by simpa [closL] using hn)
  | cons p rest ih =>
    intro S hR hS n hn
    simp only [closL] at hn
    refine ih _ (fun q hq => hR q (by simp [hq])) ?_ n hn
    intro s hs
    unfold closStep at hs
    by_cases hc : p.1 ∈ S
    · simp [hc] at hs
      rcases hs with hs | hs
      · exact hS s hs
      · exact Reaches.step (hS p.1 hc) (hR p (by simp)) hs
    · simp [hc] at hs
      exact hS s hs

theorem WF_deps_subset {l : List (String × List String)} (h : WFActions l) :
    ∀ b ds, (b, ds) ∈ l → ∀ d ∈ ds, d ∈ l.map Prod.fst := by
  induction h with
  | nil => intro b ds hm; cases hm
  | snoc hWF hname hdeps ih =>
    intro b ds hm d hd
    simp only [List.map_append, List.mem_append]
    rcases List.mem_append.1 hm with hm | hm
    · exact Or.inl (ih b ds hm d hd)
    · simp only [List.mem_singleton] at hm
      subst hm
      exact Or.inl (hdeps d hd)

theorem WF_names_nodup {l : List (String × List String)} (h : WFActions l) :
    (l.map Prod.fst).Nodup := by
  induction h with
  | nil => simp
  | snoc hWF hname hdeps ih =>
    simp only [List.map_append, List.map_cons, List.map_nil]
    exact List.Nodup.append ih (by simp) (by
      intro x hx hx'
      simp only [List.mem_singleton] at hx'
      subst hx'
      exact hname hx)

theorem closL_deps_closed {l : List (String × List String)}
    (h : WFActions l) :
    ∀ (S : List String) (b : String) (ds : List String), (b, ds) ∈ l →
    b ∈ closL l.reverse S → ∀ d ∈ ds, d ∈ closL l.reverse S := by
  induction h with
  | nil => intro S b ds hm; cases hm
  | @snoc l0 p hWF hname hdeps ih =>
    intro S b ds hm hb d hd
    rw [List.reverse_append, List.reverse_singleton] at hb ⊢
    simp only [List.singleton_append, closL] at hb ⊢
    rcases List.mem_append.1 hm with hm | hm
    · exact ih (closStep S p) b ds hm hb d hd
    · simp only [List.mem_singleton] at hm
      rcases p with ⟨p1, p2⟩
      injection hm with hbp hdsp
      subst hbp hdsp
      simp only at hname hdeps hb ⊢
      rcases mem_closL_bound _ _ b hb with hS | ⟨q, hq, hbq⟩
      · -- b must already be needed when its own entry was processed
        unfold closStep at hS ⊢
        simp only at hS ⊢
        by_cases hc : b ∈ S
        · simp only [hc, if_true] at hS ⊢
          exact mem_closL_self _ _ d (List.mem_append.2 (Or.inr hd))
        · simp only [hc, if_false] at hS
      · exact absurd (WF_deps_subset hWF q.1 q.2
          (by rcases q with ⟨q1, q2⟩; exact List.mem_reverse.1 hq) b hbq)
          hname

theorem closure_complete {l : List (String × List String)} {start n : String}
    (h : WFActions l) (hr : Reaches l start n) : n ∈ closure l start := by
  induction hr with
  | refl => exact mem_closL_self _ _ start (by simp)
  | step hb hmem hd ih => exact closL_deps_closed h _ _ _ hmem ih _ hd

theorem closure_sound {l : List (String × List String)} {start n : String}
    (hn : n ∈ closure l start) : Reaches l start n := by
  refine closL_sound l start l.reverse [start]
    (fun q hq => List.mem_reverse.1 hq) ?_ n hn
  intro s hs
  simp only [List.mem_singleton] at hs
  subst hs
  exact Reaches.refl

theorem reaches_registered {l : List (String × List String)}
    {start n : String} (h : WFActions l) (hstart : start ∈ l.map Prod.fst)
    (hr : Reaches l start n) : n ∈ l.map Prod.fst := by
  induction hr with
  | refl => exact hstart
  | step hb hmem hd ih => exact WF_deps_subset h _ _ hmem _ hd

theorem mem_execOrder {l : List (String × List String)} {start n : String}
    (h : WFActions l) (hstart : start ∈ l.map Prod.fst) :
    n ∈ execOrder l start ↔ Reaches l start n := by
  constructor
  · intro hn
    simp only [execOrder, List.mem_map, List.mem_filter,
      decide_eq_true_eq] at hn
    rcases hn with ⟨p, ⟨hp, hpc⟩, hpn⟩
    subst hpn
    exact closure_sound hpc
  · intro hr
    have hc : n ∈ closure l start := closure_complete h hr
    have hreg : n ∈ l.map Prod.fst := reaches_registered h hstart hr
    simp only [List.mem_map] at hreg
    rcases hreg with ⟨p, hp, hpn⟩
    simp only [execOrder, List.mem_map, List.mem_filter, decide_eq_true_eq]
    exact ⟨p, ⟨hp, by rw [hpn]; exact hc⟩, hpn⟩

theorem execOrder_nodup {l : List (String × List String)} {start : String}
    (h : WFActions l) : (execOrder l start).Nodup := by
  have hsub : List.Sublist (execOrder l start) (l.map Prod.fst) :=
    List.Sublist.map Prod.fst (List.filter_sublist l)
  exact (WF_names_nodup h).sublist hsub

theorem WF_dep_split {l : List (String × List String)}
    (h : WFActions l) : ∀ n ds, (n, ds) ∈ l → ∀ d ∈ ds,
    ∃ l1 l2, l = l1 ++ l2 ∧ d ∈ l1.map Prod.fst ∧ (n, ds) ∈ l2 := by
  induction h with
  | nil => intro n ds hm; cases hm
  | @snoc l0 p hWF hname hdeps ih =>
    intro n ds hm d hd
    rcases List.mem_append.1 hm with hm | hm
    · rcases ih n ds hm d hd with ⟨l1, l2, heq, hdl1, hnl2⟩
      exact ⟨l1, l2 ++ [p], by rw [heq, List.append_assoc], hdl1,
        List.mem_append.2 (Or.inl hnl2)⟩
    · simp only [List.mem_singleton] at hm
      rcases p with ⟨p1, p2⟩
      injection hm with h1 h2
      subst h1 h2
      exact ⟨l0, [(n, ds)], rfl, hdeps d hd, by simp⟩

theorem exec_dep_before {l : List (String × List String)}
    {start n d : String} {ds : List String} (h : WFActions l)
    (hmem : (n, ds) ∈ l) (hn : n ∈ execOrder l start) (hd : d ∈ ds) :
    ∃ u v, execOrder l start = u ++ v ∧ d ∈ u ∧ n ∈ v := by
  have hnc : n ∈ closure l start := by
    simp only [execOrder, List.mem_map, List.mem_filter,
      decide_eq_true_eq] at hn
    rcases hn with ⟨p, ⟨hp, hpc⟩, hpn⟩
    have hnd := WF_names_nodup h
    have hpe : p = (n, ds) :=
      List.inj_on_of_nodup_map hnd hp hmem (by rw [hpn])
    rw [hpe] at hpc
    exact hpc
  have hdc : d ∈ closure l start :=
    closL_deps_closed h _ _ _ hmem hnc d hd
  rcases WF_dep_split h n ds hmem d hd with ⟨l1, l2, heq, hdl1, hnl2⟩
  refine ⟨(l1.filter (fun p => decide (p.1 ∈ closure l start))).map Prod.fst,
    (l2.filter (fun p => decide (p.1 ∈ closure l start))).map Prod.fst,
    ?_, ?_, ?_⟩
  · rw [execOrder, heq, List.filter_append, List.map_append]
  · simp only [List.mem_map] at hdl1
    rcases hdl1 with ⟨q, hq, hqd⟩
    simp only [List.mem_map, List.mem_filter, decide_eq_true_eq]
    exact ⟨q, ⟨hq, by rw [hqd]; exact hdc⟩, hqd⟩
  · simp only [List.mem_map, List.mem_filter, decide_eq_true_eq]
    exact ⟨(n, ds), ⟨hnl2, hnc⟩, rfl⟩

theorem add_action_type_WF {α : Type} {a a' : Actions α} {name : String}
    {deps : List String} (hwf : WFActions a.nodes)
    (h : a.add_action_type name deps = .ok a') : WFActions a'.nodes := by
  unfold Actions.add_action_type at h
  by_cases h1 : name ∈ deps
  · simp [h1] at h
  · simp only [h1, if_false] at h
    rcases hfind : deps.find? (fun d => decide (d ∉ a.registeredNames)) with
      _ | d
    · rw [hfind] at h
      simp only at h
      by_cases h2 : name ∈ a.registeredNames
      · simp [h2] at h
      · simp only [h2, if_false, Except.ok.injEq] at h
        subst h
        refine WFActions.snoc hwf h2 ?_
        intro d hd
        have hreg : d ∈ a.registeredNames := by
          have := List.find?_eq_none.1 hfind d hd
          simpa using this
        simpa [Actions.registeredNames] using hreg
    · rw [hfind] at h
      simp at h

/-- C4: `run_action(name)` executes the transitive dependency closure of
`name` (the executed set is exactly the set of nodes reachable from `name`
along dependency edges), each node exactly once per invocation, with every
dependency of an executed node executed strictly before it (an order
consistent with the dependency partial order), and it invokes each executed
node's bound callable with its bound keyword arguments; in particular, after
`add_action_type("cook")`, `add_action_type("eat", deps=["cook"])`,
`set_action("cook", f1, dish="x")`, `set_action("eat", f2)`, running
`run_action("eat")` calls `f1(dish="x")` before `f2()`. -/
theorem run_action_dependency_order {α : Type} (a : Actions α)
    (name : String) (f1 f2 : α) (hwf : WFActions a.nodes)
    (hreg : name ∈ a.registeredNames) :
    (∀ n, n ∈ execOrder a.nodes name ↔ Reaches a.nodes name n) ∧
    (execOrder a.nodes name).Nodup ∧
    (∀ n ds d, (n, ds) ∈ a.nodes → n ∈ execOrder a.nodes name → d ∈ ds →
      ∃ u v, execOrder a.nodes name = u ++ v ∧ d ∈ u ∧ n ∈ v) ∧
    a.run_action name =
      .ok ((execOrder a.nodes name).filterMap (fun n => a.impls.lookup n)) ∧
    ((((((Actions.empty α).add_action_type "cook" []).bind
        (fun b => b.add_action_type "eat" ["cook"])).bind
        (fun b => b.set_action "cook" f1 [("dish", "x")])).bind
        (fun b => b.set_action "eat" f2 [])).bind
        (fun b => b.run_action "eat"))
      = .ok [(f1, [("dish", "x")]), (f2, [])] := by
  refine ⟨fun n => mem_execOrder hwf hreg, execOrder_nodup hwf,
    fun n ds d hmem hn hd => exec_dep_before hwf hmem hn hd, ?_, rfl⟩
  unfold Actions.run_action
  rw [if_pos hreg]

/-- C4 witness: the hypotheses of `run_action_dependency_order` hold for the
concrete cook/eat registry, and the theorem applies to it. -/
theorem run_action_dependency_order_witness :
    WFActions (Actions.mk (α := Nat) [("cook", []), ("eat", ["cook"])]
      [("cook", 1, [("dish", "x")]), ("eat", 2, [])]).nodes ∧
    "eat" ∈ (Actions.mk (α := Nat) [("cook", []), ("eat", ["cook"])]
      [("cook", 1, [("dish", "x")]), ("eat", 2, [])]).registeredNames ∧
    ((∀ n, n ∈ execOrder [("cook", []), ("eat", ["cook"])] "eat" ↔
        Reaches [("cook", []), ("eat", ["cook"])] "eat" n) ∧
      (execOrder [("cook", []), ("eat", ["cook"])] "eat").Nodup ∧
      (∀ n ds d, (n, ds) ∈ [("cook", []), ("eat", ["cook"])] →
        n ∈ execOrder [("cook", []), ("eat", ["cook"])] "eat" → d ∈ ds →
        ∃ u v, execOrder [("cook", []), ("eat", ["cook"])] "eat" = u ++ v ∧
          d ∈ u ∧ n ∈ v) ∧
      (Actions.mk (α := Nat) [("cook", []), ("eat", ["cook"])]
          [("cook", 1, [("dish", "x")]), ("eat", 2, [])]).run_action "eat" =
        .ok ((execOrder [("cook", []), ("eat", ["cook"])] "eat").filterMap
          (fun n => (Actions.mk (α := Nat) [("cook", []), ("eat", ["cook"])]
            [("cook", 1, [("dish", "x")]), ("eat", 2, [])]).impls.lookup n)) ∧
      ((((((Actions.empty Nat).add_action_type "cook" []).bind
          (fun b => b.add_action_type "eat" ["cook"])).bind
          (fun b => b.set_action "cook" 1 [("dish", "x")])).bind
          (fun b => b.set_action "eat" 2 [])).bind
          (fun b => b.run_action "eat"))
        = .ok [(1, [("dish", "x")]), (2, [])]) := by
  have hwf : WFActions ([("cook", [])] ++ [("eat", ["cook"])]) :=
    WFActions.snoc (WFActions.snoc WFActions.nil (by simp) (by simp))
      (by simp) (by simp)
  exact ⟨hwf, by decide,
    run_action_dependency_order
      (Actions.mk [("cook", []), ("eat", ["cook"])]
        [("cook", 1, [("dish", "x")]), ("eat", 2, [])]) "eat" 1 2
      hwf (by decide)⟩

/-- C5: `add_action_type` fails at registration time with a self-dependency
error when the new name appears in its own dependency list, and with an
unknown-dependency error when some listed dependency is not registered; it
succeeds (registering the action) exactly when there is no self dependency,
every dependency is already registered, and the name is not a duplicate, so a
failed call never registers the action. -/
theorem add_action_type_fails_fast {α : Type} (a : Actions α)
    (name : String) (deps : List String) :
    (name ∈ deps → a.add_action_type name deps =
      .error (.selfDependency name)) ∧
    (name ∉ deps → (∃ d ∈ deps, d ∉ a.registeredNames) →
      ∃ d ∈ deps, d ∉ a.registeredNames ∧
        a.add_action_type name deps = .error (.unknownDependency d)) ∧
    ((∃ a', a.add_action_type name deps = .ok a' ∧
        a'.nodes = a.nodes ++ [(name, deps)]) ↔
      (name ∉ deps ∧ (∀ d ∈ deps, d ∈ a.registeredNames) ∧
        name ∉ a.registeredNames)) := by
  refine ⟨?_, ?_, ?_⟩
  · intro h
    unfold Actions.add_action_type
    rw [if_pos h]
  · intro h1 ⟨d, hd, hdu⟩
    unfold Actions.add_action_type
    rw [if_neg h1]
    rcases hfind : deps.find? (fun d => decide (d ∉ a.registeredNames)) with
      _ | d0
    · exfalso
      have := List.find?_eq_none.1 hfind d hd
      simp at this
      exact hdu this
    · refine ⟨d0, List.mem_of_find?_eq_some hfind, ?_, rfl⟩
      have := List.find?_some hfind
      simpa using this
  · constructor
    · rintro ⟨a', ha', hnodes⟩
      unfold Actions.add_action_type at ha'
      by_cases h1 : name ∈ deps
      · simp [h1] at ha'
      · rw [if_neg h1] at ha'
        rcases hfind : deps.find? (fun d => decide (d ∉ a.registeredNames))
          with _ | d0
        · rw [hfind] at ha'
          simp only at ha'
          by_cases h2 : name ∈ a.registeredNames
          · simp [h2] at ha'
          · refine ⟨h1, ?_, h2⟩
            intro d hd
            have := List.find?_eq_none.1 hfind d hd
            simpa using this
        · rw [hfind] at ha'
          simp at ha'
    · rintro ⟨h1, h2, h3⟩
      unfold Actions.add_action_type
      rw [if_neg h1]
      have hfind : deps.find? (fun d => decide (d ∉ a.registeredNames))
          = none := by
        apply List.find?_eq_none.2
        intro d hd
        simp [h2 d hd]
      rw [hfind]
      simp only [h3, if_false]
      exact ⟨{ a with nodes := a.nodes ++ [(name, deps)] }, rfl, rfl⟩

/-- C5 witness: the hypotheses of `add_action_type_fails_fast` are
satisfiable: on an empty registry, `add_action_type("a1", deps=["a1"])` fails
with the self-dependency error and `add_action_type("go", deps=["missing"])`
fails with the unknown-dependency error. -/
theorem add_action_type_fails_fast_witness :
    ((Actions.empty Nat).add_action_type "a1" ["a1"] =
      .error (.selfDependency "a1")) ∧
    (∃ d ∈ ["missing"], d ∉ (Actions.empty Nat).registeredNames ∧
      (Actions.empty Nat).add_action_type "go" ["missing"] =
        .error (.unknownDependency d)) :=
  ⟨(add_action_type_fails_fast (Actions.empty Nat) "a1" ["a1"]).1 (by decide),
    (add_action_type_fails_fast (Actions.empty Nat) "go" ["missing"]).2.1
      (by decide) ⟨"missing", by decide, by decide⟩⟩

/-! ## Document values and the schema validator -/

/-- Modelled from the spec: the JSON-like values making up a persisted
document of the missing `watertap/ui/api.py` (UTF-8 keyed-record encoding;
numbers are modelled as integers). -/
inductive JValue where
  | jnum (n : Int)
  | jstr (s : String)
  | jbool (b : Bool)
  | jarr (elems : List JValue)
  | jobj (fields : List (String × JValue))

/-- First value bound to a key in an object's field list (JSON objects have
unique keys, matching Python dict lookup). -/
def lookupField : List (String × JValue) → String → Option JValue
  | [], _ => none
  | (k, v) :: rest, key => if k = key then some v else lookupField rest key

theorem sizeOf_lookupField {fields : List (String × JValue)} {k : String}
    {v : JValue} (h : lookupField fields k = some v) :
    sizeOf v < sizeOf fields := by
  induction fields with
  | nil => simp [lookupField] at h
  | cons p rest ih =>
    rcases p with ⟨pk, pv⟩
    simp only [lookupField] at h
    by_cases hk : pk = k
    · rw [if_pos hk] at h
      injection h with h
      subst h
      simp
      omega
    · rw [if_neg hk] at h
      have := ih h
      simp
      omega

/-- Modelled from the spec: the recursive structural schema of the missing
`watertap/ui/api.py` document format: required key `name` (string), required
key `blocks` (array whose elements recursively satisfy the same schema),
optional `variables` which must be an array if present, arbitrary additional
keys ignored (open schema). -/
def validBlock : JValue → Bool
  | .jobj fields =>
    (match lookupField fields "name" with
     | some (.jstr _) => true
     | _ => false) &&
    (match hb : lookupField fields "blocks" with
     | some (.jarr bs) => bs.attach.all (fun b => validBlock b.1)
     | _ => false) &&
    (match lookupField fields "variables" with
     | none => true
     | some (.jarr _) => true
     | some _ => false)
  | _ => false
termination_by v => sizeOf v
decreasing_by
  have h1 := sizeOf_lookupField hb
  have h2 := List.sizeOf_lt_of_mem b.2
  simp at h1 ⊢
  omega


/-- Modelled from the spec: `get_schema().validate(doc)` of the missing
`watertap/ui/api.py` returns `None` on success and a non-`None` error result
on failure (a validation failure is reported, not a crash). -/
def validate (d : JValue) : Option String :=
  if validBlock d then none else some "document does not match schema"

/-- The documents accepted by the spec's schema, written directly from the
spec's words, for comparison with the executable validator. -/
inductive ValidDoc : JValue → Prop where
  | mk (fields : List (String × JValue)) (s : String) (bs : List JValue) :
      lookupField fields "name" = some (.jstr s) →
      lookupField fields "blocks" = some (.jarr bs) →
      (∀ b ∈ bs, ValidDoc b) →
      (∀ v, lookupField fields "variables" = some v → ∃ xs, v = .jarr xs) →
      ValidDoc (.jobj fields)

theorem jvalue_strong_ind (P : JValue → Prop)
    (h : ∀ d, (∀ e, sizeOf e < sizeOf d → P e) → P d) : ∀ d, P d := by
  have key : ∀ n d, sizeOf d < n → P d := by
    intro n
    induction n with
    | zero => intro d h0; omega
    | succ n ih => intro d hd; exact h d (fun e he => ih e (by omega))
  intro d
  exact key (sizeOf d + 1) d (by omega)

theorem ValidDoc_inv {fields : List (String × JValue)}
    (h : ValidDoc (.jobj fields)) :
    (∃ s, lookupField fields "name" = some (.jstr s)) ∧
    (∃ bs, lookupField fields "blocks" = some (.jarr bs) ∧
      ∀ b ∈ bs, ValidDoc b) ∧
    (∀ v, lookupField fields "variables" = some v → ∃ xs, v = .jarr xs) := by
  cases h with
  | mk f s bs h1 h2 h3 h4 => exact ⟨⟨s, h1⟩, ⟨bs, h2, h3⟩, h4⟩

theorem validBlock_iff_ValidDoc : ∀ d, validBlock d = true ↔ ValidDoc d := by
  apply jvalue_strong_ind
  intro d ih
  cases d with
  | jnum n => simp [validBlock]; intro h; cases h
  | jstr s => simp [validBlock]; intro h; cases h
  | jbool b => simp [validBlock]; intro h; cases h
  | jarr xs => simp [validBlock]; intro h; cases h
  | jobj fields =>
    constructor
    · intro h
      rw [validBlock] at h
      simp only [Bool.and_eq_true] at h
      obtain ⟨⟨h1, h2⟩, h3⟩ := h
      rcases hname : lookupField fields "name" with _ | v1 <;>
        rw [hname] at h1
      · cases h1
      · cases v1 with
        | jstr s =>
          rcases hbs : lookupField fields "blocks" with _ | v2 <;>
            rw [hbs] at h2
          · cases h2
          · cases v2 with
            | jarr bs =>
              refine ValidDoc.mk fields s bs hname hbs ?_ ?_
              · intro b hb
                have hball := List.all_eq_true.1 h2 ⟨b, hb⟩
                  (List.mem_attach bs ⟨b, hb⟩)
                have hsz : sizeOf b < sizeOf (JValue.jobj fields) := by
                  have hx1 : sizeOf (JValue.jarr bs) < sizeOf fields :=
                    sizeOf_lookupField hbs
                  have hx2 : sizeOf b < sizeOf bs :=
                    List.sizeOf_lt_of_mem hb
                  simp at hx1 ⊢
                  omega
                exact (ih b hsz).1 hball
              · intro v hv
                rw [hv] at h3
                cases v with
                | jarr xs => exact ⟨xs, rfl⟩
                | jnum n => simp at h3
                | jstr s2 => simp at h3
                | jbool b => simp at h3
                | jobj fs => simp at h3
            | jnum n => simp at h2
            | jstr s2 => simp at h2
            | jbool b => simp at h2
            | jobj fs => simp at h2
        | jnum n => simp at h1
        | jbool b => simp at h1
        | jarr xs => simp at h1
        | jobj fs => simp at h1
    · intro h
      obtain ⟨⟨s, hname⟩, ⟨bs, hbs, hall⟩, hvars⟩ := ValidDoc_inv h
      rw [validBlock, hname, hbs]
      have h2 : bs.attach.all (fun b => validBlock b.1) = true := by
        apply List.all_eq_true.2
        intro b _
        have hsz : sizeOf b.1 < sizeOf (JValue.jobj fields) := by
          have hx1 : sizeOf (JValue.jarr bs) < sizeOf fields :=
            sizeOf_lookupField hbs
          have hx2 : sizeOf b.1 < sizeOf bs :=
            List.sizeOf_lt_of_mem b.2
          simp at hx1 ⊢
          omega
        exact (ih b.1 hsz).2 (hall b.1 b.2)
      rcases hv : lookupField fields "variables" with _ | v
      · simp [h2]
      · obtain ⟨xs, hxs⟩ := hvars v hv
        subst hxs
        simp [h2]

/-- C6: schema validation accepts exactly the documents with required string
key `name` and required array key `blocks` whose elements recursively satisfy
the same schema (with `variables`, when present, required to be an array),
tolerating arbitrary additional top-level keys: validating `{}` reports
failure; `{name: "x", blocks: []}` passes; `{name: "x", blocks: "foo"}`
reports a validation failure without crashing; extra keys and nested blocks
pass. -/
theorem schema_validate_characterization :
    validate (.jobj []) ≠ none ∧
    validate (.jobj [("name", .jstr "x"), ("blocks", .jarr [])]) = none ∧
    validate (.jobj [("name", .jstr "x"), ("blocks", .jstr "foo")]) ≠ none ∧
    validate (.jobj [("name", .jstr "x"), ("blocks", .jarr []),
      ("extra", .jobj [])]) = none ∧
    validate (.jobj [("name", .jstr "x"),
      ("blocks", .jarr [.jobj [("name", .jstr "x"), ("blocks", .jarr [])]])])
      = none ∧
    (∀ d, validate d = none ↔ ValidDoc d) := by
  refine ⟨?_, ?_, ?_, ?_, ?_, ?_⟩
  · rw [validate, validBlock]
    simp [lookupField]
  · rw [validate, validBlock]
    simp [lookupField]
  · rw [validate, validBlock]
    simp [lookupField]
  · rw [validate, validBlock]
    simp [lookupField]
  · rw [validate]
    rw [validBlock]
    simp only [lookupField, if_pos, if_neg]
    simp [validBlock, lookupField]
  · intro d
    rw [validate]
    by_cases h : validBlock d
    · simp [h, (validBlock_iff_ValidDoc d).1 h]
    · simp only [h, if_false]
      constructor
      · intro hc; cases hc
      · intro hv
        exact absurd ((validBlock_iff_ValidDoc d).2 hv) h

/-- C6 witness: the characterization applied at a concrete document: the
minimal passing document is accepted by the spec-level validity predicate. -/
theorem schema_validate_characterization_witness :
    ValidDoc (.jobj [("name", .jstr "x"), ("blocks", .jarr [])]) :=
  (schema_validate_characterization.2.2.2.2.2
    (.jobj [("name", .jstr "x"), ("blocks", .jarr [])])).1
    schema_validate_characterization.2.1

/-! ## The external model tree, export descriptors and the registry -/

/-- Modelled from the spec: a variable's value: a scalar or an ordered
sequence of scalars aligned to the variable's index order (numbers modelled
as integers). -/
inductive VarValue where
  | scalar (v : Int)
  | indexed (vs : List Int)
deriving DecidableEq

/-- Modelled from the spec: a named variable of an external tree node, with
in-place mutable value. -/
structure VarData where
  name : String
  value : VarValue
deriving DecidableEq

/-- Modelled from the spec: a block of the external hierarchical model tree:
an identity (Python object identity, modelled as a numeric id), a name, a
description, named variables and ordered child blocks. -/
inductive Block where
  | mk (bid : Nat) (name : String) (doc : String) (vars : List VarData)
      (children : List Block)

def Block.bid : Block → Nat
  | .mk i _ _ _ _ => i

def Block.name : Block → String
  | .mk _ n _ _ _ => n

def Block.doc : Block → String
  | .mk _ _ d _ _ => d

def Block.vars : Block → List VarData
  | .mk _ _ _ v _ => v

def Block.children : Block → List Block
  | .mk _ _ _ _ c => c

/-- Modelled from the spec: an Export Descriptor: how one variable of a block
appears in the document. -/
structure ExportDescriptor where
  name : String
  display_name : String
  description : String
  readonly : Bool
deriving DecidableEq

/-- Modelled from the spec: a Block Interface: display metadata plus the
explicit export declarations attached to one tree node. -/
structure BlockInterface where
  display_name : Option String
  description : Option String
  exports : List ExportDescriptor
deriving DecidableEq

/-- Modelled from the spec: one entry of the `variables` list of a raw block
configuration: either a bare variable name (shorthand) or a record with
optional display name and read-only flag. -/
inductive VarConfigEntry where
  | bare (name : String)
  | full (name : String) (display_name : Option String) (readonly : Bool)
deriving DecidableEq

/-- Modelled from the spec: a raw block-interface configuration, restricted
to the keys `display_name`, `description` and `variables`. -/
structure BlockConfig where
  display_name : Option String
  description : Option String
  vars : Option (List VarConfigEntry)
deriving DecidableEq

/-- Modelled from the spec: eager normalization of a shorthand variable entry
into a full Export Descriptor (shorthand means `readonly: false`). -/
def normalizeEntry : VarConfigEntry → ExportDescriptor
  | .bare n => ⟨n, n, "", false⟩
  | .full n d r => ⟨n, d.getD n, "", r⟩

/-- Modelled from the spec: constructing a `BlockInterface` from a raw
configuration normalizes the variable entries into Export Descriptors without
resolving them against the node. -/
def BlockInterface.fromConfig (c : BlockConfig) : BlockInterface :=
  ⟨c.display_name, c.description, (c.vars.getD []).map normalizeEntry⟩

/-- Modelled from the spec: the Interface Registry: a process-wide
association from node identity to the attached `BlockInterface`. -/
abbrev Registry := List (Nat × BlockInterface)

/-- Registry lookup by node identity. -/
def regLookup (r : Registry) (i : Nat) : Option BlockInterface :=
  List.lookup i r

/-- Modelled from the spec: `get_block_interface(node)` of the missing
`watertap/ui/api.py`: the interface associated with the node's identity, or
an absent marker. -/
def get_block_interface (r : Registry) (b : Block) : Option BlockInterface :=
  regLookup r b.bid

/-- Modelled from the spec: `set_block_interface(node, config_or_obj)` of the
missing `watertap/ui/api.py`: associate the node's identity with either an
already-constructed `BlockInterface` (stored as is) or a raw configuration
(first turned into a `BlockInterface`), replacing any previous association. -/
def set_block_interface (r : Registry) (b : Block)
    (conf : BlockConfig ⊕ BlockInterface) : Registry :=
  (b.bid, match conf with
    | .inl c => BlockInterface.fromConfig c
    | .inr i => i) :: r

/-- C10: after `set_block_interface(node, obj)` with an already-constructed
`BlockInterface` object, `get_block_interface(node)` returns that very
object (the association stores the object unchanged, the model's rendering of
Python object identity); a second `set_block_interface` on the same node
replaces the association so the latest attachment is returned; and attaching
a raw configuration mapping yields a non-absent interface on lookup. -/
theorem set_get_block_interface (r : Registry) (b : Block)
    (obj obj2 : BlockInterface) (c : BlockConfig) :
    get_block_interface (set_block_interface r b (.inr obj)) b = some obj ∧
    get_block_interface
      (set_block_interface (set_block_interface r b (.inr obj)) b
        (.inr obj2)) b = some obj2 ∧
    (get_block_interface (set_block_interface r b (.inl c)) b).isSome
      = true := by
  refine ⟨?_, ?_, ?_⟩ <;>
    simp [get_block_interface, set_block_interface, regLookup, List.lookup]

/-! ## Building the document: `as_dict` -/

/-- Modelled from the spec: a scalar value is persisted as a bare number; an
indexed value as an ordered sequence aligned to index order. -/
def serializeValue : VarValue → JValue
  | .scalar v => .jnum v
  | .indexed vs => .jarr (vs.map JValue.jnum)

/-- Parse a list of document numbers back into integers. -/
def parseNums : List JValue → Option (List Int)
  | [] => some []
  | .jnum v :: rest => (parseNums rest).map (fun vs => v :: vs)
  | _ => none

/-- Modelled from the spec: reading a persisted value back from the document
(the inverse of `serializeValue`). -/
def parseValue : JValue → Option VarValue
  | .jnum v => some (.scalar v)
  | .jarr xs => (parseNums xs).map VarValue.indexed
  | _ => none

theorem parseValue_serializeValue (v : VarValue) :
    parseValue (serializeValue v) = some v := by
  cases v with
  | scalar n => rfl
  | indexed vs =>
    simp only [serializeValue, parseValue]
    have : parseNums (vs.map JValue.jnum) = some vs := by
      induction vs with
      | nil => rfl
      | cons x rest ih => simp [parseNums, ih]
    simp [this]

/-- Named variable lookup on a node (spec's tree-node capability (c)). -/
def findVar (vars : List VarData) (n : String) : Option VarValue :=
  (vars.find? (fun v => v.name == n)).map (fun v => v.value)

/-- Modelled from the spec: lazy resolution of the declared exports against
the node's live variables, in declaration order; a declared name that does
not resolve is a configuration error raised at iteration time. -/
def resolveExports : List ExportDescriptor → List VarData →
    Except String (List (ExportDescriptor × VarValue))
  | [], _ => .ok []
  | e :: rest, vars =>
    match findVar vars e.name with
    | some v => (resolveExports rest vars).map (fun ps => (e, v) :: ps)
    | none => .error e.name

/-- Modelled from the spec: `get_exported_variables()` of the missing
`watertap/ui/api.py`: the declared exports resolved against the node's
current values, in declaration order. -/
def get_exported_variables (b : Block) (bi : BlockInterface) :
    Except String (List (ExportDescriptor × VarValue)) :=
  resolveExports bi.exports b.vars

/-- Modelled from the spec: one serialized variable record; the reserved
value key is `"value"` (`BlockSchemaDefinition.VALU_KEY`). -/
def varRecord (e : ExportDescriptor) (v : VarValue) : JValue :=
  .jobj [("name", .jstr e.name), ("display_name", .jstr e.display_name),
    ("description", .jstr e.description), ("readonly", .jbool e.readonly),
    ("value", serializeValue v)]

/-- The document entry of one interfaced block. -/
def blockEntry (bname bdoc : String) (bi : BlockInterface)
    (pairs : List (ExportDescriptor × VarValue)) (subs : List JValue) :
    JValue :=
  .jobj [("name", .jstr bname),
    ("display_name", .jstr (bi.display_name.getD bname)),
    ("description", .jstr (bi.description.getD bdoc)),
    ("variables", .jarr (pairs.map (fun p => varRecord p.1 p.2))),
    ("blocks", .jarr subs)]

mutual

/-- Modelled from the spec: the document entries contributed by one node of
the live tree: an interfaced node contributes a single entry holding its
serialized exported variables and its descendants' entries; a node without an
interface is skipped as an export point, its descendants' entries hoisted to
the enclosing interfaced ancestor. -/
def blockEntries (r : Registry) : Block → Except String (List JValue)
  | .mk bid bname bdoc bvars bchildren =>
    match childEntries r bchildren with
    | .error e => .error e
    | .ok subs =>
      match regLookup r bid with
      | none => .ok subs
      | some bi =>
        match resolveExports bi.exports bvars with
        | .error e => .error e
        | .ok pairs => .ok [blockEntry bname bdoc bi pairs subs]

/-- Document entries of a list of sibling nodes, in order. -/
def childEntries (r : Registry) : List Block → Except String (List JValue)
  | [] => .ok []
  | c :: rest =>
    match blockEntries r c with
    | .error e => .error e
    | .ok e1 =>
      match childEntries r rest with
      | .error e => .error e
      | .ok e2 => .ok (e1 ++ e2)

end

/-- Modelled from the spec: the per-load diff state of the Tree Synchronizer:
`missing` holds (block path, variable name) pairs for variable entries present
in the loaded document but not declared on the live interface, and `extra`
the reverse, following the direction exercised by
`test_flowsheet_interface_load_missing` in the repository's test suite (the
suite's assertions fix this direction). -/
structure VarDiff where
  missing : List (String × String)
  extra : List (String × String)
deriving DecidableEq

/-- Modelled from the spec: the Tree Synchronizer (`FlowsheetInterface` of the
missing `watertap/ui/api.py`): root configuration, optional bound root node,
and diff state that is absent until the first successful load. -/
structure FlowsheetInterface where
  config : BlockConfig
  root : Option Block
  var_diff : Option VarDiff

/-- Modelled from the spec: constructing a `FlowsheetInterface` from a root
configuration: unbound, with undefined diff state. -/
def FlowsheetInterface.mkNew (c : BlockConfig) : FlowsheetInterface :=
  ⟨c, none, none⟩

/-- Modelled from the spec: `set_block(node)` of the missing
`watertap/ui/api.py`: binds the root node, attaching the root configuration
to it as its block interface. -/
def FlowsheetInterface.set_block (fsi : FlowsheetInterface) (r : Registry)
    (b : Block) : Registry × FlowsheetInterface :=
  (set_block_interface r b (.inl fsi.config), { fsi with root := some b })

/-- Modelled from the spec: `as_dict()` of the missing `watertap/ui/api.py`:
the document of the whole bound tree: a root record wrapping the entries of
the bound node's subtree. -/
def FlowsheetInterface.as_dict (fsi : FlowsheetInterface) (r : Registry) :
    Except String JValue :=
  match fsi.root with
  | none => .error "not bound to a block"
  | some b =>
    match blockEntries r b with
    | .error e => .error e
    | .ok subs =>
      .ok (.jobj [("name", .jstr "__root__"), ("blocks", .jarr subs)])

theorem block_strong_ind (P : Block → Prop)
    (h : ∀ b, (∀ c, sizeOf c < sizeOf b → P c) → P b) : ∀ b, P b := by
  have key : ∀ n b, sizeOf b < n → P b := by
    intro n
    induction n with
    | zero => intro b h0; omega
    | succ n ih => intro b hb; exact h b (fun c hc => ih c (by omega))
  intro b
  exact key (sizeOf b + 1) b (by omega)

theorem sizeOf_mem_children {b : Block} {c : Block} (h : c ∈ b.children) :
    sizeOf c < sizeOf b := by
  cases b with
  | mk bid bn bd bv bc =>
    simp only [Block.children] at h
    have := List.sizeOf_lt_of_mem h
    simp
    omega

theorem validBlock_blockEntry (bn bd : String) (bi : BlockInterface)
    (pairs : List (ExportDescriptor × VarValue)) (subs : List JValue)
    (h : ∀ e ∈ subs, validBlock e = true) :
    validBlock (blockEntry bn bd bi pairs subs) = true := by
  rw [blockEntry, validBlock]
  simp [lookupField, List.all_eq_true]
  intro e he
  exact h e he

theorem childEntries_valid (r : Registry) :
    ∀ (cs : List Block),
    (∀ c ∈ cs, ∀ es, blockEntries r c = .ok es →
      ∀ e ∈ es, validBlock e = true) →
    ∀ es, childEntries r cs = .ok es → ∀ e ∈ es, validBlock e = true := by
  intro cs
  induction cs with
  | nil =>
    intro _ es hes e he
    simp only [childEntries, Except.ok.injEq] at hes
    subst hes
    cases he
  | cons c rest ih =>
    intro hall es hes e he
    simp only [childEntries] at hes
    rcases h1 : blockEntries r c with e1 | es1
    · simp only [h1] at hes
      exact Except.noConfusion hes
    · simp only [h1] at hes
      rcases h2 : childEntries r rest with e2 | es2
      · simp only [h2] at hes
        exact Except.noConfusion hes
      · simp only [h2, Except.ok.injEq] at hes
        subst hes
        rcases List.mem_append.1 he with he | he
        · exact hall c (by simp) es1 h1 e he
        · exact ih (fun c' hc' => hall c' (by simp [hc'])) es2 h2 e he

theorem blockEntries_valid (r : Registry) :
    ∀ b es, blockEntries r b = .ok es → ∀ e ∈ es, validBlock e = true := by
  apply block_strong_ind
  intro b ihb es hes e he
  cases b with
  | mk bid bn bd bv bc =>
    simp only [blockEntries] at hes
    rcases hce : childEntries r bc with e1 | subs
    · simp only [hce] at hes
      exact Except.noConfusion hes
    · simp only [hce] at hes
      have hsubs : ∀ e ∈ subs, validBlock e = true := by
        refine childEntries_valid r bc ?_ subs hce
        intro c hc es' hes' e' he'
        have hsz : sizeOf c < sizeOf (Block.mk bid bn bd bv bc) :=
          sizeOf_mem_children (by simpa [Block.children] using hc)
        exact ihb c hsz es' hes' e' he'
      rcases hrl : regLookup r bid with _ | bi
      · simp only [hrl, Except.ok.injEq] at hes
        subst hes
        exact hsubs e he
      · simp only [hrl] at hes
        rcases hre : resolveExports bi.exports bv with e2 | pairs
        · simp only [hre] at hes
          exact Except.noConfusion hes
        · simp only [hre, Except.ok.injEq] at hes
          subst hes
          simp only [List.mem_singleton] at he
          subst he
          exact validBlock_blockEntry bn bd bi pairs subs hsubs

/-- C7: every document produced by `as_dict()` on a bound synchronizer
(whatever the shape of the tree, wherever interfaces are attached and however
many variables are exported) passes `get_schema().validate`. -/
theorem as_dict_validate (r : Registry) (fsi : FlowsheetInterface)
    (d : JValue) (h : fsi.as_dict r = .ok d) : validate d = none := by
  unfold FlowsheetInterface.as_dict at h
  rcases hroot : fsi.root with _ | b
  · simp only [hroot] at h
    exact Except.noConfusion h
  · simp only [hroot] at h
    rcases hbe : blockEntries r b with e1 | subs
    · simp only [hbe] at h
      exact Except.noConfusion h
    · simp only [hbe, Except.ok.injEq] at h
      subst h
      rw [validate]
      have hv : validBlock (.jobj [("name", .jstr "__root__"),
          ("blocks", .jarr subs)]) = true := by
        rw [validBlock]
        simp [lookupField, List.all_eq_true]
        intro e he
        exact blockEntries_valid r b subs hbe e he
      rw [hv]
      simp

/-- C7 witness: a concrete bound synchronizer over a one-block tree with one
exported variable: its `as_dict()` document and the validation verdict. -/
theorem as_dict_validate_witness :
    ((FlowsheetInterface.mk ⟨none, none, some [.bare "foo_var"]⟩
        (some (.mk 0 "Flowsheet" "" [⟨"foo_var", .scalar 0⟩] []))
        none).as_dict
      (set_block_interface [] (.mk 0 "Flowsheet" "" [⟨"foo_var", .scalar 0⟩] [])
        (.inl ⟨none, none, some [.bare "foo_var"]⟩)) =
      .ok (.jobj [("name", .jstr "__root__"), ("blocks", .jarr
        [.jobj [("name", .jstr "Flowsheet"),
          ("display_name", .jstr "Flowsheet"),
          ("description", .jstr ""),
          ("variables", .jarr [.jobj [("name", .jstr "foo_var"),
            ("display_name", .jstr "foo_var"),
            ("description", .jstr ""),
            ("readonly", .jbool false),
            ("value", .jnum 0)]]),
          ("blocks", .jarr [])]])])) ∧
    validate (.jobj [("name", .jstr "__root__"), ("blocks", .jarr
        [.jobj [("name", .jstr "Flowsheet"),
          ("display_name", .jstr "Flowsheet"),
          ("description", .jstr ""),
          ("variables", .jarr [.jobj [("name", .jstr "foo_var"),
            ("display_name", .jstr "foo_var"),
            ("description", .jstr ""),
            ("readonly", .jbool false),
            ("value", .jnum 0)]]),
          ("blocks", .jarr [])]])]) = none := by
  have hd : ((FlowsheetInterface.mk ⟨none, none, some [.bare "foo_var"]⟩
        (some (.mk 0 "Flowsheet" "" [⟨"foo_var", .scalar 0⟩] []))
        none).as_dict
      (set_block_interface [] (.mk 0 "Flowsheet" "" [⟨"foo_var", .scalar 0⟩] [])
        (.inl ⟨none, none, some [.bare "foo_var"]⟩)) =
      .ok (.jobj [("name", .jstr "__root__"), ("blocks", .jarr
        [.jobj [("name", .jstr "Flowsheet"),
          ("display_name", .jstr "Flowsheet"),
          ("description", .jstr ""),
          ("variables", .jarr [.jobj [("name", .jstr "foo_var"),
            ("display_name", .jstr "foo_var"),
            ("description", .jstr ""),
            ("readonly", .jbool false),
            ("value", .jnum 0)]]),
          ("blocks", .jarr [])]])])) := by
    simp [FlowsheetInterface.as_dict, blockEntries, childEntries,
      set_block_interface, regLookup, List.lookup, resolveExports, findVar,
      BlockInterface.fromConfig, normalizeEntry, blockEntry, varRecord,
      serializeValue, Block.bid, Block.vars, Except.map]
  exact ⟨hd, as_dict_validate _ _ _ hd⟩

/-! ## Loading a document back into the tree -/

/-- Name of a document record (block entry or variable record). -/
def docName (e : JValue) : Option String :=
  match e with
  | .jobj fields =>
    match lookupField fields "name" with
    | some (.jstr s) => some s
    | _ => none
  | _ => none

/-- Variable records of a document block entry. -/
def docVariables (e : JValue) : List JValue :=
  match e with
  | .jobj fields =>
    match lookupField fields "variables" with
    | some (.jarr xs) => xs
    | _ => []
  | _ => []

/-- Sub-block entries of a document block entry. -/
def docBlocks (e : JValue) : List JValue :=
  match e with
  | .jobj fields =>
    match lookupField fields "blocks" with
    | some (.jarr xs) => xs
    | _ => []
  | _ => []

/-- The reserved value key of a variable record. -/
def varRecValue (v : JValue) : Option JValue :=
  match v with
  | .jobj fields => lookupField fields "value"
  | _ => none

/-- Names carried by a list of document variable records. -/
def docVarNames (docVars : List JValue) : List String :=
  docVars.filterMap docName

/-- Modelled from the spec: the per-variable update rule of `load` in the
missing `watertap/ui/api.py`: a live variable that is not declared on the
interface, or is declared read-only, or has no matching document record,
keeps its live value (a read-only mismatch is silently honored, not an
error); otherwise it is overwritten with the loaded value. -/
def applyVar (exports : List ExportDescriptor) (docVars : List JValue)
    (vd : VarData) : VarData :=
  match exports.find? (fun e => e.name == vd.name) with
  | none => vd
  | some e =>
    if e.readonly then vd
    else
      match docVars.find? (fun dv => docName dv == some vd.name) with
      | none => vd
      | some dv =>
        match varRecValue dv with
        | none => vd
        | some jv =>
          match parseValue jv with
          | none => vd
          | some w => { vd with value := w }

/-- Update all live variables of one block from the document records. -/
def applyVars (exports : List ExportDescriptor) (docVars : List JValue)
    (vars : List VarData) : List VarData :=
  vars.map (applyVar exports docVars)

mutual

/-- Modelled from the spec: loading one matched block of the missing
`watertap/ui/api.py`: update the live variables from the document records,
record the diff for this block path (document records with no live
declaration into `missing`, live declarations with no document record into
`extra`, the direction asserted by the repository's test suite), and walk the
children in lock-step with the entry's sub-blocks, matching by name. -/
def loadBlock (r : Registry) (path : String) :
    Block → JValue →
    Block × List (String × String) × List (String × String)
  | .mk bid bname bdoc bvars bchildren, e =>
    match regLookup r bid with
    | none => (.mk bid bname bdoc bvars bchildren, [], [])
    | some bi =>
      let docVars := docVariables e
      let declared := bi.exports.map (fun x => x.name)
      let dnames := docVarNames docVars
      let missingHere :=
        (dnames.filter (fun n => decide (n ∉ declared))).map
          (fun n => (path, n))
      let extraHere :=
        (declared.filter (fun n => decide (n ∉ dnames))).map
          (fun n => (path, n))
      let res := loadChildren r path bchildren (docBlocks e)
      (.mk bid bname bdoc (applyVars bi.exports docVars bvars) res.1,
        missingHere ++ res.2.1, extraHere ++ res.2.2)

/-- Walk sibling nodes against the document entries of their enclosing
interfaced ancestor: an interfaced child is matched by name (unmatched ones
are left untouched); a child without an interface is traversed through, its
descendants matched against the same entry list. -/
def loadChildren (r : Registry) (path : String) :
    List Block → List JValue →
    List Block × List (String × String) × List (String × String)
  | [], _ => ([], [], [])
  | .mk cid cname cdoc cvars cchildren :: rest, dbs =>
    let res1 :=
      match regLookup r cid with
      | some _ =>
        match dbs.find? (fun db => docName db == some cname) with
        | some db =>
          loadBlock r (path ++ "." ++ cname)
            (.mk cid cname cdoc cvars cchildren) db
        | none => (Block.mk cid cname cdoc cvars cchildren, [], [])
      | none =>
        let sub := loadChildren r path cchildren dbs
        (Block.mk cid cname cdoc cvars sub.1, sub.2.1, sub.2.2)
    let res2 := loadChildren r path rest dbs
    (res1.1 :: res2.1, res1.2.1 ++ res2.2.1, res1.2.2 ++ res2.2.2)

end

/-- Modelled from the spec: `get_var_missing()` of the missing
`watertap/ui/api.py`: fails with a lookup error until a load has occurred in
the object's lifetime. -/
def FlowsheetInterface.get_var_missing (fsi : FlowsheetInterface) :
    Except String (List (String × String)) :=
  match fsi.var_diff with
  | none => .error "KeyError: get_var_missing called before load"
  | some vd => .ok vd.missing

/-- Modelled from the spec: `get_var_extra()` of the missing
`watertap/ui/api.py`: fails with a lookup error until a load has occurred in
the object's lifetime. -/
def FlowsheetInterface.get_var_extra (fsi : FlowsheetInterface) :
    Except String (List (String × String)) :=
  match fsi.var_diff with
  | none => .error "KeyError: get_var_extra called before load"
  | some vd => .ok vd.extra

/-- Modelled from the spec: matching the bound root node against the loaded
document's top-level block entries by name (an unmatched root is left
untouched with empty diff). -/
def loadRoot (r : Registry) (b : Block) (d : JValue) :
    Block × List (String × String) × List (String × String) :=
  match (docBlocks d).find? (fun db => docName db == some b.name) with
  | some db => loadBlock r b.name b db
  | none => (b, [], [])

/-- Modelled from the spec: `load(document)` of the missing
`watertap/ui/api.py`: schema-validate the document (a reportable error on
failure), match the bound root against the document's block entries by name,
update the live tree, and fully replace the diff state. -/
def FlowsheetInterface.load (fsi : FlowsheetInterface) (r : Registry)
    (d : JValue) : Except String FlowsheetInterface :=
  match fsi.root with
  | none => .error "not bound to a block"
  | some b =>
    match validate d with
    | some err => .error err
    | none =>
      .ok ⟨fsi.config, some (loadRoot r b d).1,
        some ⟨(loadRoot r b d).2.1, (loadRoot r b d).2.2⟩⟩

theorem load_ok {fsi : FlowsheetInterface} {r : Registry} {d : JValue}
    {b : Block} (hroot : fsi.root = some b) (hv : validate d = none) :
    fsi.load r d = .ok ⟨fsi.config, some (loadRoot r b d).1,
      some ⟨(loadRoot r b d).2.1, (loadRoot r b d).2.2⟩⟩ := by
  rw [FlowsheetInterface.load]
  simp only [hroot, hv]

/-- C8: on any flowsheet interface whose lifetime contains no successful load
(the diff state is still absent), `get_var_missing()` and `get_var_extra()`
fail with a lookup-style error rather than returning an empty mapping; a
freshly constructed interface has absent diff state, and binding it to a root
node with `set_block` does not change that. -/
theorem get_var_before_load_fails :
    (∀ fsi : FlowsheetInterface, fsi.var_diff = none →
      fsi.get_var_missing =
        .error "KeyError: get_var_missing called before load" ∧
      fsi.get_var_extra =
        .error "KeyError: get_var_extra called before load") ∧
    (∀ c, (FlowsheetInterface.mkNew c).var_diff = none) ∧
    (∀ c r b,
      (((FlowsheetInterface.mkNew c).set_block r b).2).var_diff = none) := by
  refine ⟨?_, ?_, ?_⟩
  · intro fsi h
    constructor
    · rw [FlowsheetInterface.get_var_missing, h]
    · rw [FlowsheetInterface.get_var_extra, h]
  · intro c
    rfl
  · intro c r b
    rfl

/-- C8 witness: a concrete interface bound to a root node but never loaded:
both accessors fail with the lookup error. -/
theorem get_var_before_load_fails_witness :
    (((FlowsheetInterface.mkNew ⟨none, none, none⟩).set_block []
        (.mk 0 "Flowsheet" "" [] [])).2.var_diff = none) ∧
    (((FlowsheetInterface.mkNew ⟨none, none, none⟩).set_block []
        (.mk 0 "Flowsheet" "" [] [])).2.get_var_missing =
      .error "KeyError: get_var_missing called before load") ∧
    (((FlowsheetInterface.mkNew ⟨none, none, none⟩).set_block []
        (.mk 0 "Flowsheet" "" [] [])).2.get_var_extra =
      .error "KeyError: get_var_extra called before load") :=
  ⟨rfl,
    (get_var_before_load_fails.1
      ((FlowsheetInterface.mkNew ⟨none, none, none⟩).set_block []
        (.mk 0 "Flowsheet" "" [] [])).2 rfl).1,
    (get_var_before_load_fails.1
      ((FlowsheetInterface.mkNew ⟨none, none, none⟩).set_block []
        (.mk 0 "Flowsheet" "" [] [])).2 rfl).2⟩

/-- C2: during `load`, a matched variable declared `readonly: true` keeps its
live value (the loaded value is discarded and no error is raised), while a
matched non-read-only variable is overwritten with the loaded value; each
loaded block applies exactly this per-variable rule to its live variables;
concretely, for a block with live values `foo_var = 0` (writable) and
`bar_var = 0` (read-only), loading a document holding `1` for both leaves
`bar_var` at `0` and sets `foo_var` to `1`, with a successful (non-error)
load. -/
theorem load_readonly_protection :
    (∀ (exports : List ExportDescriptor) (docVars : List JValue)
      (vd : VarData) (e : ExportDescriptor),
      exports.find? (fun x => x.name == vd.name) = some e →
      e.readonly = true → applyVar exports docVars vd = vd) ∧
    (∀ (exports : List ExportDescriptor) (docVars : List JValue)
      (vd : VarData) (e : ExportDescriptor) (dv jv : JValue) (w : VarValue),
      exports.find? (fun x => x.name == vd.name) = some e →
      e.readonly = false →
      docVars.find? (fun x => docName x == some vd.name) = some dv →
      varRecValue dv = some jv → parseValue jv = some w →
      applyVar exports docVars vd = { vd with value := w }) ∧
    (∀ (r : Registry) (path : String) (bid : Nat) (bname bdoc : String)
      (bvars : List VarData) (bchildren : List Block) (e : JValue)
      (bi : BlockInterface), regLookup r bid = some bi →
      ∃ cs m ex, loadBlock r path (.mk bid bname bdoc bvars bchildren) e =
        (.mk bid bname bdoc
          (applyVars bi.exports (docVariables e) bvars) cs, m, ex)) ∧
    ((FlowsheetInterface.mk
        ⟨some "Flowsheet", none,
          some [.bare "foo_var", .full "bar_var" none true]⟩
        (some (.mk 0 "Flowsheet" ""
          [⟨"foo_var", .scalar 0⟩, ⟨"bar_var", .scalar 0⟩] []))
        none).load
      (set_block_interface []
        (.mk 0 "Flowsheet" ""
          [⟨"foo_var", .scalar 0⟩, ⟨"bar_var", .scalar 0⟩] [])
        (.inl ⟨some "Flowsheet", none,
          some [.bare "foo_var", .full "bar_var" none true]⟩))
      (.jobj [("name", .jstr "__root__"), ("blocks", .jarr
        [.jobj [("name", .jstr "Flowsheet"), ("blocks", .jarr []),
          ("variables", .jarr
            [.jobj [("name", .jstr "foo_var"), ("value", .jnum 1)],
             .jobj [("name", .jstr "bar_var"), ("value", .jnum 1)]])]])]) =
      .ok ⟨⟨some "Flowsheet", none,
          some [.bare "foo_var", .full "bar_var" none true]⟩,
        some (.mk 0 "Flowsheet" ""
          [⟨"foo_var", .scalar 1⟩, ⟨"bar_var", .scalar 0⟩] []),
        some ⟨[], []⟩⟩) := by
  refine ⟨?_, ?_, ?_, ?_⟩
  · intro exports docVars vd e hfind hro
    simp [applyVar, hfind, hro]
  · intro exports docVars vd e dv jv w hfind hro hdv hjv hw
    simp [applyVar, hfind, hro, hdv, hjv, hw]
  · intro r path bid bname bdoc bvars bchildren e bi hbi
    refine ⟨(loadChildren r path bchildren (docBlocks e)).1,
      ((docVarNames (docVariables e)).filter
          (fun n => decide (n ∉ bi.exports.map (fun x => x.name)))).map
            (fun n => (path, n)) ++
        (loadChildren r path bchildren (docBlocks e)).2.1,
      ((bi.exports.map (fun x => x.name)).filter
          (fun n => decide (n ∉ docVarNames (docVariables e)))).map
            (fun n => (path, n)) ++
        (loadChildren r path bchildren (docBlocks e)).2.2,
      by simp only [loadBlock, hbi]⟩
  · have hval : validate (.jobj [("name", .jstr "__root__"),
        ("blocks", .jarr
        [.jobj [("name", .jstr "Flowsheet"), ("blocks", .jarr []),
          ("variables", .jarr
            [.jobj [("name", .jstr "foo_var"), ("value", .jnum 1)],
             .jobj [("name", .jstr "bar_var"), ("value", .jnum 1)]])]])])
        = none := by
      rw [validate]
      have hv : validBlock (.jobj [("name", .jstr "__root__"),
          ("blocks", .jarr
          [.jobj [("name", .jstr "Flowsheet"), ("blocks", .jarr []),
            ("variables", .jarr
              [.jobj [("name", .jstr "foo_var"), ("value", .jnum 1)],
               .jobj [("name", .jstr "bar_var"), ("value", .jnum 1)]])]])])
          = true := by
        rw [validBlock]
        simp [lookupField, List.all_eq_true]
        rw [validBlock]
        simp [lookupField]
      rw [hv]
      simp
    rw [load_ok rfl hval]
    rfl

/-- C2 witness: the read-only and overwrite rules applied at concrete inputs:
a read-only `bar_var` keeps its value, a writable `foo_var` is overwritten,
and a matched block's update has the `applyVars` shape. -/
theorem load_readonly_protection_witness :
    (applyVar [⟨"bar_var", "bar", "", true⟩] [] ⟨"bar_var", .scalar 0⟩ =
      ⟨"bar_var", .scalar 0⟩) ∧
    (applyVar [⟨"foo_var", "foo", "", false⟩]
      [.jobj [("name", .jstr "foo_var"), ("value", .jnum 1)]]
      ⟨"foo_var", .scalar 0⟩ = ⟨"foo_var", .scalar 1⟩) ∧
    (∃ cs m ex, loadBlock
      [(0, ⟨some "Flowsheet", none,
        [⟨"foo_var", "foo_var", "", false⟩,
         ⟨"bar_var", "bar_var", "", true⟩]⟩)] "p"
      (.mk 0 "Flowsheet" "" [⟨"foo_var", .scalar 0⟩] []) (.jobj []) =
      (.mk 0 "Flowsheet" ""
        (applyVars [⟨"foo_var", "foo_var", "", false⟩,
          ⟨"bar_var", "bar_var", "", true⟩]
          (docVariables (.jobj [])) [⟨"foo_var", .scalar 0⟩]) cs, m, ex)) :=
  ⟨load_readonly_protection.1 [⟨"bar_var", "bar", "", true⟩] []
      ⟨"bar_var", .scalar 0⟩ ⟨"bar_var", "bar", "", true⟩ rfl rfl,
    load_readonly_protection.2.1 [⟨"foo_var", "foo", "", false⟩]
      [.jobj [("name", .jstr "foo_var"), ("value", .jnum 1)]]
      ⟨"foo_var", .scalar 0⟩ ⟨"foo_var", "foo", "", false⟩
      (.jobj [("name", .jstr "foo_var"), ("value", .jnum 1)])
      (.jnum 1) (.scalar 1) rfl rfl rfl rfl rfl,
    load_readonly_protection.2.2.1
      [(0, ⟨some "Flowsheet", none,
        [⟨"foo_var", "foo_var", "", false⟩,
         ⟨"bar_var", "bar_var", "", true⟩]⟩)] "p" 0 "Flowsheet" ""
      [⟨"foo_var", .scalar 0⟩] [] (.jobj [])
      ⟨some "Flowsheet", none,
        [⟨"foo_var", "foo_var", "", false⟩,
         ⟨"bar_var", "bar_var", "", true⟩]⟩ rfl⟩

theorem mem_pathTag {path : String} {l : List String}
    {pn : String × String} (h : pn ∈ l.map (fun n => (path, n))) :
    pn.1 = path := by
  rcases List.mem_map.1 h with ⟨n, _, hn⟩
  rw [← hn]

mutual

theorem loadBlock_diff_paths (r : Registry) (q : String) (b : Block)
    (e : JValue) : ∀ pn : String × String,
    (pn ∈ (loadBlock r q b e).2.1 ∨ pn ∈ (loadBlock r q b e).2.2) →
    q.length ≤ pn.1.length := by
  cases b with
  | mk bid bname bdoc bvars bchildren =>
    intro pn hpn
    rw [loadBlock] at hpn
    rcases hbi : regLookup r bid with _ | bi
    · simp [hbi] at hpn
    · simp only [hbi] at hpn
      have hrec := loadChildren_diff_paths r q bchildren (docBlocks e) pn
      simp only [List.mem_append] at hpn
      rcases hpn with (h | h) | (h | h)
      · have := congrArg String.length (mem_pathTag h)
        omega
      · exact le_of_lt (hrec (Or.inl h))
      · have := congrArg String.length (mem_pathTag h)
        omega
      · exact le_of_lt (hrec (Or.inr h))

theorem loadChildren_diff_paths (r : Registry) (path : String)
    (cs : List Block) (dbs : List JValue) : ∀ pn : String × String,
    (pn ∈ (loadChildren r path cs dbs).2.1 ∨
      pn ∈ (loadChildren r path cs dbs).2.2) →
    path.length < pn.1.length := by
  cases cs with
  | nil =>
    intro pn hpn
    rw [loadChildren] at hpn
    simp at hpn
  | cons c rest =>
    cases c with
    | mk cid cname cdoc cvars cchildren =>
      intro pn hpn
      rw [loadChildren] at hpn
      simp only [List.mem_append] at hpn
      have hrest := loadChildren_diff_paths r path rest dbs pn
      have hdot : String.length "." = 1 := rfl
      have hlen : (path ++ "." ++ cname).length =
          path.length + 1 + cname.length := by
        simp [String.length_append, hdot]
      rcases hpn with (h | h) | (h | h)
      · rcases hbi : regLookup r cid with _ | bi
        · simp only [hbi] at h
          exact loadChildren_diff_paths r path cchildren dbs pn (Or.inl h)
        · simp only [hbi] at h
          rcases hdb : dbs.find? (fun db => docName db == some cname)
            with _ | db
          · simp only [hdb] at h
            cases h
          · simp only [hdb] at h
            have hblk := loadBlock_diff_paths r (path ++ "." ++ cname)
              (.mk cid cname cdoc cvars cchildren) db pn (Or.inl h)
            omega
      · exact hrest (Or.inl h)
      · rcases hbi : regLookup r cid with _ | bi
        · simp only [hbi] at h
          exact loadChildren_diff_paths r path cchildren dbs pn (Or.inr h)
        · simp only [hbi] at h
          rcases hdb : dbs.find? (fun db => docName db == some cname)
            with _ | db
          · simp only [hdb] at h
            cases h
          · simp only [hdb] at h
            have hblk := loadBlock_diff_paths r (path ++ "." ++ cname)
              (.mk cid cname cdoc cvars cchildren) db pn (Or.inr h)
            omega
      · exact hrest (Or.inr h)

end

/-- C1 counterexample: the claim as stated is false on the modelled code: in
the test suite's own scenario (a saved document whose only block's variables
list was emptied before reload, every listed variable still declared on the
live interface), the load succeeds with `get_var_missing()` EMPTY — the
declared-but-absent variables do not appear in it; they appear in
`get_var_extra()` instead, exactly as the repository's test asserts. -/
theorem load_missing_direction_counterexample :
    ((FlowsheetInterface.mk
        ⟨some "Flowsheet", none, some [.bare "foo_var", .bare "bar_var"]⟩
        (some (.mk 0 "Flowsheet" ""
          [⟨"foo_var", .scalar 0⟩, ⟨"bar_var", .scalar 0⟩] []))
        none).load
      (set_block_interface []
        (.mk 0 "Flowsheet" ""
          [⟨"foo_var", .scalar 0⟩, ⟨"bar_var", .scalar 0⟩] [])
        (.inl ⟨some "Flowsheet", none,
          some [.bare "foo_var", .bare "bar_var"]⟩))
      (.jobj [("name", .jstr "__root__"), ("blocks", .jarr
        [.jobj [("name", .jstr "Flowsheet"), ("blocks", .jarr []),
          ("variables", .jarr [])]])]) =
      .ok ⟨⟨some "Flowsheet", none,
          some [.bare "foo_var", .bare "bar_var"]⟩,
        some (.mk 0 "Flowsheet" ""
          [⟨"foo_var", .scalar 0⟩, ⟨"bar_var", .scalar 0⟩] []),
        some ⟨[], [("Flowsheet", "foo_var"), ("Flowsheet", "bar_var")]⟩⟩) ∧
    (FlowsheetInterface.get_var_missing
      ⟨⟨some "Flowsheet", none,
          some [.bare "foo_var", .bare "bar_var"]⟩,
        some (.mk 0 "Flowsheet" ""
          [⟨"foo_var", .scalar 0⟩, ⟨"bar_var", .scalar 0⟩] []),
        some ⟨[], [("Flowsheet", "foo_var"), ("Flowsheet", "bar_var")]⟩⟩ =
      .ok []) ∧
    (FlowsheetInterface.get_var_extra
      ⟨⟨some "Flowsheet", none,
          some [.bare "foo_var", .bare "bar_var"]⟩,
        some (.mk 0 "Flowsheet" ""
          [⟨"foo_var", .scalar 0⟩, ⟨"bar_var", .scalar 0⟩] []),
        some ⟨[], [("Flowsheet", "foo_var"), ("Flowsheet", "bar_var")]⟩⟩ =
      .ok [("Flowsheet", "foo_var"), ("Flowsheet", "bar_var")]) ∧
    ([("Flowsheet", "foo_var"), ("Flowsheet", "bar_var")] ≠
      ([] : List (String × String))) := by
  have hval : validate (.jobj [("name", .jstr "__root__"), ("blocks", .jarr
      [.jobj [("name", .jstr "Flowsheet"), ("blocks", .jarr []),
        ("variables", .jarr [])]])]) = none := by
    rw [validate]
    have hv : validBlock (.jobj [("name", .jstr "__root__"),
        ("blocks", .jarr
        [.jobj [("name", .jstr "Flowsheet"), ("blocks", .jarr []),
          ("variables", .jarr [])]])]) = true := by
      rw [validBlock]
      simp [lookupField, List.all_eq_true]
      rw [validBlock]
      simp [lookupField]
    rw [hv]
    simp
  refine ⟨?_, rfl, rfl, by simp⟩
  rw [load_ok rfl hval]
  rfl

/-- C1 (amended): after a load, for every variable still declared on a
matched block's live interface but absent from that block's variable records
in the document, `get_var_extra()` contains that variable's (block path,
name) pair and `get_var_missing()` does not; symmetrically, a variable entry
present in the document's matched block but not declared on the live
interface appears in `get_var_missing()` (and not in `get_var_extra()`).  In
particular, loading a saved document whose only block's variables list was
emptied yields a non-empty `get_var_extra()` for the declared-but-absent
variables and an empty `get_var_missing()`. -/
theorem load_diff_direction (r : Registry) (path : String) (bid : Nat)
    (bname bdoc : String) (bvars : List VarData) (bchildren : List Block)
    (e : JValue) (bi : BlockInterface) (b' : Block)
    (m ex : List (String × String)) (hbi : regLookup r bid = some bi)
    (hload : loadBlock r path (.mk bid bname bdoc bvars bchildren) e
      = (b', m, ex)) :
    (∀ n, n ∈ bi.exports.map (fun x => x.name) →
      n ∉ docVarNames (docVariables e) →
      (path, n) ∈ ex ∧ (path, n) ∉ m) ∧
    (∀ n, n ∈ docVarNames (docVariables e) →
      n ∉ bi.exports.map (fun x => x.name) →
      (path, n) ∈ m ∧ (path, n) ∉ ex) ∧
    (FlowsheetInterface.get_var_missing
      ⟨⟨some "Flowsheet", none,
          some [.bare "foo_var", .bare "bar_var"]⟩,
        some (.mk 0 "Flowsheet" ""
          [⟨"foo_var", .scalar 0⟩, ⟨"bar_var", .scalar 0⟩] []),
        some ⟨[], [("Flowsheet", "foo_var"), ("Flowsheet", "bar_var")]⟩⟩ =
      .ok [] ∧
     FlowsheetInterface.get_var_extra
      ⟨⟨some "Flowsheet", none,
          some [.bare "foo_var", .bare "bar_var"]⟩,
        some (.mk 0 "Flowsheet" ""
          [⟨"foo_var", .scalar 0⟩, ⟨"bar_var", .scalar 0⟩] []),
        some ⟨[], [("Flowsheet", "foo_var"), ("Flowsheet", "bar_var")]⟩⟩ =
      .ok [("Flowsheet", "foo_var"), ("Flowsheet", "bar_var")]) := by
  simp only [loadBlock, hbi] at hload
  simp only [Prod.mk.injEq] at hload
  obtain ⟨hb', hm, hex⟩ := hload
  have hchild := loadChildren_diff_paths r path bchildren (docBlocks e)
  refine ⟨?_, ?_, rfl, rfl⟩
  · intro n hdecl hnot
    constructor
    · rw [← hex]
      apply List.mem_append.2
      left
      apply List.mem_map.2
      refine ⟨n, List.mem_filter.2 ⟨hdecl, ?_⟩, rfl⟩
      simpa using hnot
    · rw [← hm]
      intro hmem
      rcases List.mem_append.1 hmem with hmem | hmem
      · rcases List.mem_map.1 hmem with ⟨n', hn'm, hn'2⟩
        have hn'f := (List.mem_filter.1 hn'm).1
        have : n' = n := by
          have := congrArg Prod.snd hn'2
          simpa using this
        subst this
        exact hnot hn'f
      · have := hchild (path, n) (Or.inl hmem)
        simp at this
  · intro n hdoc hnot
    constructor
    · rw [← hm]
      apply List.mem_append.2
      left
      apply List.mem_map.2
      refine ⟨n, List.mem_filter.2 ⟨hdoc, ?_⟩, rfl⟩
      simpa using hnot
    · rw [← hex]
      intro hmem
      rcases List.mem_append.1 hmem with hmem | hmem
      · rcases List.mem_map.1 hmem with ⟨n', hn'm, hn'2⟩
        have hn'f := (List.mem_filter.1 hn'm).1
        have : n' = n := by
          have := congrArg Prod.snd hn'2
          simpa using this
        subst this
        exact hnot hn'f
      · have := hchild (path, n) (Or.inr hmem)
        simp at this

/-- C1 witness: the amended diff-direction rules applied to the concrete
emptied-variables reload: the declared variable `foo_var` lands in the extra
list and not in the missing list. -/
theorem load_diff_direction_witness :
    ("Flowsheet", "foo_var") ∈
      [(("Flowsheet" : String), ("foo_var" : String)),
        ("Flowsheet", "bar_var")] ∧
    ("Flowsheet", "foo_var") ∉ ([] : List (String × String)) :=
  (load_diff_direction
    [(0, ⟨some "Flowsheet", none,
      [⟨"foo_var", "foo_var", "", false⟩,
       ⟨"bar_var", "bar_var", "", false⟩]⟩)]
    "Flowsheet" 0 "Flowsheet" ""
    [⟨"foo_var", .scalar 0⟩, ⟨"bar_var", .scalar 0⟩] []
    (.jobj [("name", .jstr "Flowsheet"), ("blocks", .jarr []),
      ("variables", .jarr [])])
    ⟨some "Flowsheet", none,
      [⟨"foo_var", "foo_var", "", false⟩,
       ⟨"bar_var", "bar_var", "", false⟩]⟩
    (.mk 0 "Flowsheet" ""
      [⟨"foo_var", .scalar 0⟩, ⟨"bar_var", .scalar 0⟩] [])
    [] [("Flowsheet", "foo_var"), ("Flowsheet", "bar_var")]
    rfl rfl).1 "foo_var" (by decide) (by decide)

/-! ## Round trip: loading back the saved document -/

mutual

/-- The export points contributed by one node: itself when interfaced,
otherwise its descendants' export points hoisted up. -/
def exportNodes (r : Registry) : Block → List Block
  | .mk bid bn bd bv bc =>
    match regLookup r bid with
    | some _ => [.mk bid bn bd bv bc]
    | none => exportChildren r bc

/-- The export points contributed by a list of sibling nodes, in order. -/
def exportChildren (r : Registry) : List Block → List Block
  | [] => []
  | c :: rest => exportNodes r c ++ exportChildren r rest

end

/-- Well-formedness of the live tree for reload matching: variable names are
unique within each block, and the export points visible among each block's
children carry distinct names (the tree contract's stable-name requirement,
needed so that matching by name is unambiguous). -/
inductive WFTree (r : Registry) : Block → Prop where
  | mk (bid : Nat) (bn bd : String) (bvars : List VarData)
      (bchildren : List Block) :
      (bvars.map (fun v => v.name)).Nodup →
      ((exportChildren r bchildren).map Block.name).Nodup →
      (∀ c ∈ bchildren, WFTree r c) →
      WFTree r (.mk bid bn bd bvars bchildren)

theorem find_name_unique {dbs : List JValue} {e : JValue} {n : String}
    (hnd : (dbs.filterMap docName).Nodup) (he : e ∈ dbs)
    (hn : docName e = some n) :
    dbs.find? (fun db => docName db == some n) = some e := by
  induction dbs with
  | nil => cases he
  | cons d rest ih =>
    rw [List.find?_cons]
    simp only [List.mem_cons] at he
    rcases hp : (docName d == some n) with _ | _
    · -- head does not carry the name: e is in the tail
      have hne : e ≠ d := by
        intro h
        rw [← h, hn] at hp
        simp at hp
      have he' : e ∈ rest := by
        rcases he with he | he
        · exact absurd he hne
        · exact he
      have hnd' : (rest.filterMap docName).Nodup := by
        rcases hdn : docName d with _ | m
        · simpa [List.filterMap_cons, hdn] using hnd
        · rw [List.filterMap_cons, hdn] at hnd
          exact hnd.of_cons
      simp only
      exact ih hnd' he'
    · -- head carries the name: e must be the head
      have hd : docName d = some n := eq_of_beq hp
      simp only
      rcases he with he | he
      · rw [he]
      · exfalso
        have hmem : n ∈ rest.filterMap docName :=
          List.mem_filterMap.2 ⟨e, he, hn⟩
        rw [List.filterMap_cons, hd] at hnd
        exact (List.nodup_cons.1 hnd).1 hmem

theorem find_name_self {vars : List VarData} {vd : VarData}
    (hnd : (vars.map (fun v => v.name)).Nodup) (hv : vd ∈ vars) :
    vars.find? (fun v => v.name == vd.name) = some vd := by
  induction vars with
  | nil => cases hv
  | cons w rest ih =>
    rw [List.find?_cons]
    simp only [List.mem_cons] at hv
    rcases hp : (w.name == vd.name) with _ | _
    · have hne : vd ≠ w := by
        intro h
        rw [← h] at hp
        simp at hp
      have hv' : vd ∈ rest := by
        rcases hv with hv | hv
        · exact absurd hv hne
        · exact hv
      simp only
      exact ih (by simpa using hnd.of_cons) hv'
    · have heq : w.name = vd.name := eq_of_beq hp
      simp only
      rcases hv with hv | hv
      · rw [hv]
      · exfalso
        have hmem : vd.name ∈ rest.map (fun v => v.name) :=
          List.mem_map.2 ⟨vd, hv, rfl⟩
        rw [List.map_cons] at hnd
        exact (List.nodup_cons.1 hnd).1 (heq ▸ hmem)

theorem docName_varRecord (e : ExportDescriptor) (v : VarValue) :
    docName (varRecord e v) = some e.name := rfl

theorem varRecValue_varRecord (e : ExportDescriptor) (v : VarValue) :
    varRecValue (varRecord e v) = some (serializeValue v) := rfl

theorem docName_blockEntry (bn bd : String) (bi : BlockInterface)
    (pairs : List (ExportDescriptor × VarValue)) (subs : List JValue) :
    docName (blockEntry bn bd bi pairs subs) = some bn := rfl

theorem docVariables_blockEntry (bn bd : String) (bi : BlockInterface)
    (pairs : List (ExportDescriptor × VarValue)) (subs : List JValue) :
    docVariables (blockEntry bn bd bi pairs subs) =
      pairs.map (fun p => varRecord p.1 p.2) := rfl

theorem docBlocks_blockEntry (bn bd : String) (bi : BlockInterface)
    (pairs : List (ExportDescriptor × VarValue)) (subs : List JValue) :
    docBlocks (blockEntry bn bd bi pairs subs) = subs := rfl

theorem docVarNames_varRecords (pairs : List (ExportDescriptor × VarValue)) :
    docVarNames (pairs.map (fun p => varRecord p.1 p.2)) =
      pairs.map (fun p => p.1.name) := by
  induction pairs with
  | nil => rfl
  | cons p rest ih =>
    simp only [List.map_cons, docVarNames, List.filterMap_cons,
      docName_varRecord]
    simpa [docVarNames] using ih

theorem resolveExports_spec {exports : List ExportDescriptor}
    {vars : List VarData} {pairs : List (ExportDescriptor × VarValue)}
    (h : resolveExports exports vars = .ok pairs) :
    pairs.map Prod.fst = exports ∧
      ∀ p ∈ pairs, findVar vars p.1.name = some p.2 := by
  induction exports generalizing pairs with
  | nil =>
    simp only [resolveExports, Except.ok.injEq] at h
    subst h
    exact ⟨rfl, by intro p hp; cases hp⟩
  | cons e rest ih =>
    simp only [resolveExports] at h
    rcases hf : findVar vars e.name with _ | v
    · rw [hf] at h
      cases h
    · rw [hf] at h
      rcases hr : resolveExports rest vars with err | ps
      · rw [hr] at h
        cases h
      · rw [hr] at h
        simp only [Except.map, Except.ok.injEq] at h
        subst h
        rcases ih hr with ⟨ih1, ih2⟩
        constructor
        · simp [ih1]
        · intro p hp
          simp only [List.mem_cons] at hp
          rcases hp with hp | hp
          · rw [hp]
            exact hf
          · exact ih2 p hp

theorem map_fix_id {α : Type} {f : α → α} :
    ∀ l : List α, (∀ x ∈ l, f x = x) → l.map f = l := by
  intro l
  induction l with
  | nil => intro _; rfl
  | cons x rest ih =>
    intro h
    simp only [List.map_cons]
    rw [h x (by simp), ih (fun y hy => h y (by simp [hy]))]

theorem applyVars_round_trip {exports : List ExportDescriptor}
    {vars : List VarData} {pairs : List (ExportDescriptor × VarValue)}
    (hres : resolveExports exports vars = .ok pairs)
    (hnd : (vars.map (fun v => v.name)).Nodup) :
    applyVars exports (pairs.map (fun p => varRecord p.1 p.2)) vars
      = vars := by
  rcases resolveExports_spec hres with ⟨hfst, hval⟩
  have key : ∀ vd ∈ vars,
      applyVar exports (pairs.map (fun p => varRecord p.1 p.2)) vd = vd := by
    intro vd hvd
    rw [applyVar]
    rcases hfe : exports.find? (fun e => e.name == vd.name) with _ | ed
    · simp only [hfe]
    · simp only [hfe]
      by_cases hro : ed.readonly = true
      · rw [if_pos hro]
      · rw [if_neg hro]
        -- the document record matched by name comes from some resolved pair
        have hed : ed ∈ exports := List.mem_of_find?_eq_some hfe
        have hedn : ed.name = vd.name := by
          have h := List.find?_some hfe
          simp at h
          exact h
        -- find the first document record with this name
        rcases hdf : (pairs.map (fun p => varRecord p.1 p.2)).find?
            (fun dv => docName dv == some vd.name) with _ | dv
        · -- impossible: the record for `ed` is present
          exfalso
          have : ∃ p ∈ pairs, p.1 = ed := by
            rw [← hfst] at hed
            rcases List.mem_map.1 hed with ⟨p, hp, hpe⟩
            exact ⟨p, hp, hpe⟩
          rcases this with ⟨p, hp, hpe⟩
          have hrec : varRecord p.1 p.2 ∈
              pairs.map (fun p => varRecord p.1 p.2) :=
            List.mem_map.2 ⟨p, hp, rfl⟩
          have hpred : (docName (varRecord p.1 p.2) == some vd.name)
              = true := by
            rw [docName_varRecord, hpe, hedn]
            simp
          have := List.find?_eq_none.1 hdf _ hrec
          rw [hpred] at this
          simp at this
        · -- the found record's value is the live value of `vd`
          simp only [hdf]
          have hdv : dv ∈ pairs.map (fun p => varRecord p.1 p.2) :=
            List.mem_of_find?_eq_some hdf
          rcases List.mem_map.1 hdv with ⟨p, hp, hpd⟩
          have hpred := List.find?_some hdf
          rw [← hpd, docName_varRecord] at hpred
          have hpn : p.1.name = vd.name := by
            have := eq_of_beq hpred
            injection this
          have hfv : findVar vars p.1.name = some p.2 := hval p hp
          have hvd2 : findVar vars vd.name = some vd.value := by
            rw [findVar, find_name_self hnd hvd]
            rfl
          rw [hpn] at hfv
          have hval2 : p.2 = vd.value := by
            rw [hvd2] at hfv
            injection hfv with hfv
            exact hfv.symm
          rw [← hpd]
          simp only [varRecValue_varRecord, parseValue_serializeValue]
          rw [hval2]
  rw [applyVars]
  exact map_fix_id vars key

theorem WFTree_inv {r : Registry} {b : Block} (h : WFTree r b) :
    (b.vars.map (fun v => v.name)).Nodup ∧
    ((exportChildren r b.children).map Block.name).Nodup ∧
    (∀ c ∈ b.children, WFTree r c) := by
  cases h with
  | mk bid bn bd bvars bchildren h1 h2 h3 => exact ⟨h1, h2, h3⟩

mutual

theorem blockEntries_names (r : Registry) (b : Block) :
    ∀ es, blockEntries r b = .ok es →
    es.filterMap docName = (exportNodes r b).map Block.name := by
  cases b with
  | mk bid bn bd bv bc =>
    intro es hes
    simp only [blockEntries] at hes
    rw [exportNodes]
    rcases hce : childEntries r bc with e1 | subs
    · simp only [hce] at hes
      exact Except.noConfusion hes
    · simp only [hce] at hes
      rcases hrl : regLookup r bid with _ | bi
      · simp only [hrl, Except.ok.injEq] at hes
        subst hes
        simp only [hrl]
        exact childEntries_names r bc subs hce
      · simp only [hrl] at hes
        rcases hre : resolveExports bi.exports bv with e2 | pairs
        · simp only [hre] at hes
          exact Except.noConfusion hes
        · simp only [hre, Except.ok.injEq] at hes
          subst hes
          simp [hrl, docName_blockEntry, Block.name]

theorem childEntries_names (r : Registry) (cs : List Block) :
    ∀ es, childEntries r cs = .ok es →
    es.filterMap docName = (exportChildren r cs).map Block.name := by
  cases cs with
  | nil =>
    intro es hes
    simp only [childEntries, Except.ok.injEq] at hes
    subst hes
    rfl
  | cons c rest =>
    intro es hes
    simp only [childEntries] at hes
    rcases h1 : blockEntries r c with e1 | es1
    · simp only [h1] at hes
      exact Except.noConfusion hes
    · simp only [h1] at hes
      rcases h2 : childEntries r rest with e2 | es2
      · simp only [h2] at hes
        exact Except.noConfusion hes
      · simp only [h2, Except.ok.injEq] at hes
        subst hes
        rw [exportChildren]
        simp only [List.filterMap_append, List.map_append]
        rw [blockEntries_names r c es1 h1, childEntries_names r rest es2 h2]

end

mutual

theorem loadBlock_round_trip (r : Registry) (b : Block) :
    ∀ path bi pairs subs, WFTree r b → regLookup r b.bid = some bi →
    resolveExports bi.exports b.vars = .ok pairs →
    childEntries r b.children = .ok subs →
    loadBlock r path b (blockEntry b.name b.doc bi pairs subs) =
      (b, [], []) := by
  cases b with
  | mk bid bn bd bv bc =>
    intro path bi pairs subs hwf hbi hres hce
    simp only [Block.bid] at hbi
    simp only [Block.vars] at hres
    simp only [Block.children] at hce
    obtain ⟨hvnd, hend, hcwf⟩ := WFTree_inv hwf
    simp only [Block.vars, Block.children] at hvnd hend hcwf
    have hnames : docVarNames
        (docVariables (blockEntry bn bd bi pairs subs)) =
        bi.exports.map (fun x => x.name) := by
      rw [docVariables_blockEntry, docVarNames_varRecords]
      have hfst := (resolveExports_spec hres).1
      rw [← hfst]
      simp [List.map_map, Function.comp]
    have hv : applyVars bi.exports
        (docVariables (blockEntry bn bd bi pairs subs)) bv = bv := by
      rw [docVariables_blockEntry]
      exact applyVars_round_trip hres hvnd
    have hch : loadChildren r path bc
        (docBlocks (blockEntry bn bd bi pairs subs)) = (bc, [], []) := by
      rw [docBlocks_blockEntry]
      refine loadChildren_round_trip r bc path subs subs hcwf hce
        (fun e he => he) ?_
      rw [childEntries_names r bc subs hce]
      exact hend
    have hmh : (docVarNames (docVariables (blockEntry bn bd bi pairs
        subs))).filter
        (fun n => decide (n ∉ bi.exports.map (fun x => x.name))) = [] := by
      rw [hnames]
      apply List.filter_eq_nil_iff.2
      intro a ha
      simp [ha]
    have heh : ((bi.exports.map (fun x => x.name)).filter
        (fun n => decide (n ∉ docVarNames (docVariables (blockEntry bn bd bi
          pairs subs))))) = [] := by
      rw [hnames]
      apply List.filter_eq_nil_iff.2
      intro a ha
      simp [ha]
    rw [loadBlock]
    simp only [Block.name, Block.doc] at hv hch hmh heh ⊢
    simp only [hbi, hv, hch, hmh, heh]
    simp

theorem loadChildren_round_trip (r : Registry) (cs : List Block) :
    ∀ path dbs es, (∀ c ∈ cs, WFTree r c) →
    childEntries r cs = .ok es → (∀ e ∈ es, e ∈ dbs) →
    (dbs.filterMap docName).Nodup →
    loadChildren r path cs dbs = (cs, [], []) := by
  cases cs with
  | nil =>
    intro path dbs es _ _ _ _
    rw [loadChildren]
  | cons c rest =>
    cases c with
    | mk cid cn cd cv cc =>
      intro path dbs es hwf hces hsub hnd
      simp only [childEntries] at hces
      rcases h1 : blockEntries r (.mk cid cn cd cv cc) with e1 | es1
      · simp only [h1] at hces
        exact Except.noConfusion hces
      · simp only [h1] at hces
        rcases h2 : childEntries r rest with e2 | es2
        · simp only [h2] at hces
          exact Except.noConfusion hces
        · simp only [h2, Except.ok.injEq] at hces
          subst hces
          rw [loadChildren]
          have hrest : loadChildren r path rest dbs = (rest, [], []) :=
            loadChildren_round_trip r rest path dbs es2
              (fun c hc => hwf c (by simp [hc])) h2
              (fun e he => hsub e (List.mem_append.2 (Or.inr he))) hnd
          rcases hbi : regLookup r cid with _ | bi
          · -- no interface on the child: traverse through
            simp only [blockEntries, hbi] at h1
            rcases hcc : childEntries r cc with e3 | subs3
            · simp only [hcc] at h1
              exact Except.noConfusion h1
            · simp only [hcc, Except.ok.injEq] at h1
              subst h1
              have hcwf : ∀ c ∈ cc, WFTree r c := by
                have := (WFTree_inv
                  (hwf (Block.mk cid cn cd cv cc) (by simp))).2.2
                simpa [Block.children] using this
              have hsubc : loadChildren r path cc dbs = (cc, [], []) :=
                loadChildren_round_trip r cc path dbs subs3 hcwf hcc
                  (fun e he => hsub e (List.mem_append.2 (Or.inl he))) hnd
              simp only [hbi, hsubc, hrest]
              simp
          · -- interfaced child: matched by name
            simp only [blockEntries, hbi] at h1
            rcases hcc : childEntries r cc with e3 | subs3
            · simp only [hcc] at h1
              exact Except.noConfusion h1
            · simp only [hcc] at h1
              rcases hre : resolveExports bi.exports cv with e4 | pairs
              · simp only [hre] at h1
                exact Except.noConfusion h1
              · simp only [hre, Except.ok.injEq] at h1
                subst h1
                have hent : blockEntry cn cd bi pairs subs3 ∈ dbs :=
                  hsub (blockEntry cn cd bi pairs subs3)
                    (List.mem_append.2 (Or.inl (by simp)))
                have hfind : dbs.find? (fun db => docName db == some cn) =
                    some (blockEntry cn cd bi pairs subs3) :=
                  find_name_unique hnd hent
                    (docName_blockEntry cn cd bi pairs subs3)
                have hlb : loadBlock r (path ++ "." ++ cn)
                    (.mk cid cn cd cv cc)
                    (blockEntry cn cd bi pairs subs3) =
                    (.mk cid cn cd cv cc, [], []) :=
                  loadBlock_round_trip r (.mk cid cn cd cv cc)
                    (path ++ "." ++ cn) bi pairs subs3
                    (hwf (Block.mk cid cn cd cv cc) (by simp))
                    (by simpa [Block.bid] using hbi)
                    (by simpa [Block.vars] using hre)
                    (by simpa [Block.children] using hcc)
                simp only [hbi, hfind, hlb, hrest]
                simp

end

/-- C3: for a bound synchronizer over a well-formed tree with no read-only
variables, loading back the document produced by `as_dict()` (with no
intervening external mutation) succeeds and leaves the live tree — and hence
every exported variable's value — unchanged: the resulting interface has the
same root node, the same root configuration, produces the same document
(the model's rendering of interface equality, as checked by `load_from`
followed by `==` in the tests), and reports an empty diff. -/
theorem save_load_round_trip (r : Registry) (fsi : FlowsheetInterface)
    (b : Block) (d : JValue) (bi : BlockInterface)
    (hroot : fsi.root = some b) (hbi : regLookup r b.bid = some bi)
    (hwf : WFTree r b)
    (hnoro : ∀ p ∈ r, ∀ x ∈ p.2.exports, x.readonly = false)
    (hd : fsi.as_dict r = .ok d) :
    ∃ fsi', fsi.load r d = .ok fsi' ∧ fsi'.root = some b ∧
      fsi'.config = fsi.config ∧ fsi'.as_dict r = .ok d ∧
      fsi'.var_diff = some ⟨[], []⟩ := by
  have hval : validate d = none := as_dict_validate r fsi d hd
  simp only [FlowsheetInterface.as_dict, hroot] at hd
  rcases hbe : blockEntries r b with e1 | subs
  · simp only [hbe] at hd
    exact Except.noConfusion hd
  · simp only [hbe, Except.ok.injEq] at hd
    cases b with
    | mk bid bn bd bv bc =>
      simp only [blockEntries] at hbe
      rcases hcc : childEntries r bc with e3 | subs0
      · simp only [hcc] at hbe
        exact Except.noConfusion hbe
      · simp only [hcc] at hbe
        simp only [Block.bid] at hbi
        simp only [hbi] at hbe
        rcases hre : resolveExports bi.exports bv with e4 | pairs
        · simp only [hre] at hbe
          exact Except.noConfusion hbe
        · simp only [hre, Except.ok.injEq] at hbe
          subst hbe
          subst hd
          refine ⟨⟨fsi.config, some (.mk bid bn bd bv bc), some ⟨[], []⟩⟩,
            ?_, rfl, rfl, ?_, rfl⟩
          · rw [load_ok hroot hval]
            have hlr : loadRoot r (.mk bid bn bd bv bc)
                (JValue.jobj [("name", JValue.jstr "__root__"),
                  ("blocks", JValue.jarr
                    [blockEntry bn bd bi pairs subs0])]) =
                (.mk bid bn bd bv bc, [], []) := by
              rw [loadRoot]
              have hdb : docBlocks (JValue.jobj
                  [("name", JValue.jstr "__root__"),
                    ("blocks", JValue.jarr
                      [blockEntry bn bd bi pairs subs0])]) =
                  [blockEntry bn bd bi pairs subs0] := rfl
              rw [hdb]
              have hfind : [blockEntry bn bd bi pairs subs0].find?
                  (fun db => docName db ==
                    some (Block.mk bid bn bd bv bc).name) =
                  some (blockEntry bn bd bi pairs subs0) := by
                rw [List.find?_cons]
                have hp : (docName (blockEntry bn bd bi pairs subs0) ==
                    some (Block.mk bid bn bd bv bc).name) = true := by
                  simp [docName_blockEntry, Block.name]
                rw [hp]
              rw [hfind]
              exact loadBlock_round_trip r (.mk bid bn bd bv bc)
                (Block.mk bid bn bd bv bc).name bi pairs subs0 hwf
                (by simpa [Block.bid] using hbi)
                (by simpa [Block.vars] using hre)
                (by simpa [Block.children] using hcc)
            rw [hlr]
          · simp only [FlowsheetInterface.as_dict]
            simp only [blockEntries, hcc, hbi, hre]

/-- C3 witness: the round trip applied to a concrete bound synchronizer over
a one-block tree with one writable exported variable. -/
theorem save_load_round_trip_witness :
    ∃ fsi', (FlowsheetInterface.mk ⟨none, none, some [.bare "foo_var"]⟩
        (some (.mk 0 "Flowsheet" "" [⟨"foo_var", .scalar 0⟩] []))
        none).load
      (set_block_interface [] (.mk 0 "Flowsheet" ""
          [⟨"foo_var", .scalar 0⟩] [])
        (.inl ⟨none, none, some [.bare "foo_var"]⟩))
      (.jobj [("name", .jstr "__root__"), ("blocks", .jarr
        [.jobj [("name", .jstr "Flowsheet"),
          ("display_name", .jstr "Flowsheet"),
          ("description", .jstr ""),
          ("variables", .jarr [.jobj [("name", .jstr "foo_var"),
            ("display_name", .jstr "foo_var"),
            ("description", .jstr ""),
            ("readonly", .jbool false),
            ("value", .jnum 0)]]),
          ("blocks", .jarr [])]])]) = .ok fsi' ∧
      fsi'.root = some (.mk 0 "Flowsheet" "" [⟨"foo_var", .scalar 0⟩] []) ∧
      fsi'.config = (FlowsheetInterface.mk
        ⟨none, none, some [.bare "foo_var"]⟩
        (some (.mk 0 "Flowsheet" "" [⟨"foo_var", .scalar 0⟩] []))
        none).config ∧
      fsi'.as_dict (set_block_interface [] (.mk 0 "Flowsheet" ""
          [⟨"foo_var", .scalar 0⟩] [])
        (.inl ⟨none, none, some [.bare "foo_var"]⟩)) =
        .ok (.jobj [("name", .jstr "__root__"), ("blocks", .jarr
          [.jobj [("name", .jstr "Flowsheet"),
            ("display_name", .jstr "Flowsheet"),
            ("description", .jstr ""),
            ("variables", .jarr [.jobj [("name", .jstr "foo_var"),
              ("display_name", .jstr "foo_var"),
              ("description", .jstr ""),
              ("readonly", .jbool false),
              ("value", .jnum 0)]]),
            ("blocks", .jarr [])]])]) ∧
      fsi'.var_diff = some ⟨[], []⟩ := by
  have hd : ((FlowsheetInterface.mk ⟨none, none, some [.bare "foo_var"]⟩
        (some (.mk 0 "Flowsheet" "" [⟨"foo_var", .scalar 0⟩] []))
        none).as_dict
      (set_block_interface [] (.mk 0 "Flowsheet" ""
          [⟨"foo_var", .scalar 0⟩] [])
        (.inl ⟨none, none, some [.bare "foo_var"]⟩)) =
      .ok (.jobj [("name", .jstr "__root__"), ("blocks", .jarr
        [.jobj [("name", .jstr "Flowsheet"),
          ("display_name", .jstr "Flowsheet"),
          ("description", .jstr ""),
          ("variables", .jarr [.jobj [("name", .jstr "foo_var"),
            ("display_name", .jstr "foo_var"),
            ("description", .jstr ""),
            ("readonly", .jbool false),
            ("value", .jnum 0)]]),
          ("blocks", .jarr [])]])])) := by
    simp [FlowsheetInterface.as_dict, blockEntries, childEntries,
      set_block_interface, regLookup, List.lookup, resolveExports, findVar,
      BlockInterface.fromConfig, normalizeEntry, blockEntry, varRecord,
      serializeValue, Block.bid, Block.vars, Except.map]
  exact save_load_round_trip _ _ _ _
    (BlockInterface.fromConfig ⟨none, none, some [.bare "foo_var"]⟩)
    rfl rfl
    (WFTree.mk 0 "Flowsheet" "" [⟨"foo_var", .scalar 0⟩] []
      (by simp) (by simp [exportChildren]) (by simp))
    (by decide) hd
